import Mathlib

/-!
Verification of the pyPheWAS core (pyPhewasCorev2.py): a shallow embedding of
the multiple-comparison threshold calculators, the per-phenotype regression
dispatch, the regression error handling, and the 3-layer feature-matrix
builder, with theorems checking the documented behaviour of each.

Modelling conventions:
* Real / float arithmetic is embedded exactly over `ℚ`; a possibly-NaN float
  is `Option ℚ` with `none` standing for NaN (an entry `np.isfinite` rejects).
* Python exceptions are `Except` values; a function that can raise returns
  `Except`.
* Subject and phenotype-code identifiers are natural numbers; sorting by `id`
  is a stable insertion sort, matching a pandas `sort_values(by='id')` (event
  order inside one id never affects the matrix: every in-group write is
  idempotent or commutative).
-/

namespace PyPheWAS

/-! ### Multiple-comparison threshold calculators
(pyPhewasCorev2.py, `get_bon_thresh` lines 461-476, `get_fdr_thresh` 479-500,
`get_bhy_thresh` 504-525). -/

/-- Model of `get_bon_thresh`: `alpha / sum(np.isfinite(p_values))`.
`np.isfinite(p_values)` is the 0/1 indicator vector of non-NaN entries and
`sum` adds it up. -/
def get_bon_thresh (p_values : List (Option ℚ)) (alpha : ℚ) : ℚ :=
  alpha / (p_values.map (fun x => if x.isSome then (1 : ℚ) else 0)).sum

/-- `sn = np.sort(p_values); sn = sn[np.isfinite(sn)]`: `np.sort` puts the NaN
entries last, and the finiteness mask then drops them, so the result is the
ascending sort of the finite entries. -/
def sortedFinite (p_values : List (Option ℚ)) : List ℚ :=
  (p_values.filterMap id).insertionSort (· ≤ ·)

/-- FDR critical value at 0-based rank `i`: `alpha * float(i+1) / float(m)`. -/
def fdrCrit (alpha : ℚ) (m : ℕ) (i : ℕ) : ℚ := alpha * (i + 1) / m

/-- BHY critical value at 0-based rank `i`:
`alpha * float(i+1) / (8.1 * float(m))`. -/
def bhyCrit (alpha : ℚ) (m : ℕ) (i : ℕ) : ℚ := alpha * (i + 1) / (8.1 * m)

/-- The loop shared by `get_fdr_thresh` and `get_bhy_thresh`:
`for i in range(len(sn)): if sn[i] <= p_crit: continue; else: break`.
`breakIdx crit i l` is the value the loop variable holds after the loop when
the remaining entries are `l` and the next index is `i`: the first index whose
entry exceeds its critical value, or the final index `i + l.length - 1` when
the loop runs to completion (for the top-level call on a non-empty `l` that is
`l.length - 1`). -/
def breakIdx (crit : ℕ → ℚ) : ℕ → List ℚ → ℕ
  | i, [] => i - 1
  | i, x :: rest => if x ≤ crit i then breakIdx crit (i + 1) rest else i

/-- Model of `get_fdr_thresh`. When no entry is finite the loop body never
runs, so the trailing `return sn[i]` reads an unbound `i` and raises
`NameError`; that is the `.error` case. -/
def get_fdr_thresh (p_values : List (Option ℚ)) (alpha : ℚ) : Except String ℚ :=
  if sortedFinite p_values = [] then .error "NameError: name i is not defined"
  else .ok ((sortedFinite p_values).getD
    (breakIdx (fdrCrit alpha (sortedFinite p_values).length) 0 (sortedFinite p_values)) 0)

/-- Model of `get_bhy_thresh`: identical to `get_fdr_thresh` except for the
`8.1` factor in the critical value. -/
def get_bhy_thresh (p_values : List (Option ℚ)) (alpha : ℚ) : Except String ℚ :=
  if sortedFinite p_values = [] then .error "NameError: name i is not defined"
  else .ok ((sortedFinite p_values).getD
    (breakIdx (bhyCrit alpha (sortedFinite p_values).length) 0 (sortedFinite p_values)) 0)

/-! #### Lemmas about the step-up scan -/

theorem breakIdx_lt {crit : ℕ → ℚ} :
    ∀ (l : List ℚ) (i : ℕ), l ≠ [] → i ≤ breakIdx crit i l ∧ breakIdx crit i l < i + l.length
  | [], _, h => absurd rfl h
  | x :: rest, i, _ => by
    unfold breakIdx
    by_cases hx : x ≤ crit i
    · simp only [hx, if_true]
      rcases List.eq_nil_or_concat rest with hrest | _
      · subst hrest
        simp [breakIdx]
      · rcases @breakIdx_lt crit rest (i + 1) (by
          rintro rfl
          simp_all) with ⟨h1, h2⟩
        constructor
        · omega
        · simpa [List.length_cons] using h2.trans_le (by omega)
    · simp only [hx, if_false]
      exact ⟨le_refl i, by simp [List.length_cons]⟩

theorem breakIdx_eq_of_fail {crit : ℕ → ℚ} :
    ∀ (l : List ℚ) (i j : ℕ) (hj : j < l.length),
      (∀ k (hk : k < j), l.get ⟨k, hk.trans hj⟩ ≤ crit (i + k)) →
      ¬ (l.get ⟨j, hj⟩ ≤ crit (i + j)) →
      breakIdx crit i l = i + j
  | [], _, j, hj, _, _ => absurd hj (by simp)
  | x :: rest, i, 0, hj, _, hfail => by
    unfold breakIdx
    simp only [List.get] at hfail
    simp [Nat.add_zero] at hfail
    simp [hfail]
  | x :: rest, i, j + 1, hj, hpre, hfail => by
    unfold breakIdx
    have hx : x ≤ crit i := by
      have := hpre 0 (Nat.succ_pos j)
      simpa using this
    simp only [hx, if_true]
    have hrec := @breakIdx_eq_of_fail crit rest (i + 1) j
      (by simpa using Nat.lt_of_succ_lt_succ hj)
      (fun k hk => by
        have := hpre (k + 1) (Nat.succ_lt_succ hk)
        simpa [Nat.add_assoc, Nat.add_comm 1 k] using this)
      (by
        have h := hfail
        simp only [List.get] at h ⊢
        simpa [Nat.add_assoc, Nat.add_comm 1 j] using h)
    omega

theorem breakIdx_eq_of_all {crit : ℕ → ℚ} :
    ∀ (l : List ℚ) (i : ℕ), l ≠ [] →
      (∀ k (hk : k < l.length), l.get ⟨k, hk⟩ ≤ crit (i + k)) →
      breakIdx crit i l = i + l.length - 1
  | [], _, h, _ => absurd rfl h
  | x :: rest, i, _, hall => by
    unfold breakIdx
    have hx : x ≤ crit i := by simpa using hall 0 (by simp)
    simp only [hx, if_true]
    rcases List.eq_nil_or_concat rest with hrest | hne
    · subst hrest
      simp [breakIdx]
    · have hrne : rest ≠ [] := by
        rcases hne with ⟨a, b, hab⟩
        simp [hab]
      have hrec := @breakIdx_eq_of_all crit rest (i + 1) hrne
        (fun k hk => by
          have := hall (k + 1) (by simpa using Nat.succ_lt_succ hk)
          simpa [Nat.add_assoc, Nat.add_comm 1 k] using this)
      rw [hrec]
      have : rest.length ≠ 0 := by simpa using hrne
      simp only [List.length_cons]
      omega

theorem sum_indicator_eq_countFinite (p : List (Option ℚ)) :
    (p.map (fun x => if x.isSome then (1 : ℚ) else 0)).sum = (p.filterMap id).length := by
  induction p with
  | nil => simp
  | cons x rest ih =>
    cases x with
    | none => simpa using ih
    | some v =>
      simp only [List.map_cons, List.sum_cons, List.filterMap_cons, id, List.length_cons, ih]
      push_cast
      simp [add_comm]

theorem mem_sortedFinite {p : List (Option ℚ)} {v : ℚ} :
    v ∈ sortedFinite p ↔ some v ∈ p := by
  rw [sortedFinite, (List.perm_insertionSort _ _).mem_iff, List.mem_filterMap]
  simp

theorem sortedFinite_sorted (p : List (Option ℚ)) :
    (sortedFinite p).Sorted (· ≤ ·) :=
  List.sorted_insertionSort _ _

theorem sortedFinite_eq_nil {p : List (Option ℚ)} :
    sortedFinite p = [] ↔ ∀ x : ℚ, some x ∉ p := by
  constructor
  · intro h x hx
    have : x ∈ sortedFinite p := mem_sortedFinite.mpr hx
    simp [h] at this
  · intro h
    have : p.filterMap id = [] := by
      rw [List.filterMap_eq_nil_iff]
      intro a ha
      cases a with
      | none => rfl
      | some v => exact absurd ha (h v)
    simp [sortedFinite, this]

theorem getD_eq_get {l : List ℚ} {k : ℕ} (hk : k < l.length) :
    l.getD k 0 = l.get ⟨k, hk⟩ := by
  rw [List.getD_eq_getElem?_getD, List.getElem?_eq_getElem hk]
  rfl

theorem stepUp_getD_of_fail {sn : List ℚ} {crit : ℕ → ℚ} {i : ℕ} (hi : i < sn.length)
    (hpre : ∀ k, k < i → sn.getD k 0 ≤ crit k)
    (hfail : ¬ (sn.getD i 0 ≤ crit i)) :
    sn.getD (breakIdx crit 0 sn) 0 = sn.getD i 0 := by
  have h := @breakIdx_eq_of_fail crit sn 0 i hi
    (fun k hk => by
      rw [← getD_eq_get (hk.trans hi)]
      simpa using hpre k hk)
    (by
      rw [← getD_eq_get hi]
      simpa using hfail)
  rw [Nat.zero_add] at h
  rw [h]

theorem stepUp_getD_of_all {sn : List ℚ} {crit : ℕ → ℚ} (h : sn ≠ [])
    (hall : ∀ k, k < sn.length → sn.getD k 0 ≤ crit k) :
    sn.getD (breakIdx crit 0 sn) 0 = sn.getD (sn.length - 1) 0 := by
  have hb := @breakIdx_eq_of_all crit sn 0 h (fun k hk => by
    rw [← getD_eq_get hk]
    simpa using hall k hk)
  rw [Nat.zero_add] at hb
  rw [hb]

theorem stepUp_getD_mem {sn : List ℚ} {crit : ℕ → ℚ} (h : sn ≠ []) :
    sn.getD (breakIdx crit 0 sn) 0 ∈ sn := by
  have hb := @breakIdx_lt crit sn 0 h
  have hlt : breakIdx crit 0 sn < sn.length := by simpa using hb.2
  rw [getD_eq_get hlt]
  exact List.get_mem _ _ _

theorem le_getLast_of_sorted {l : List ℚ} (hs : l.Sorted (· ≤ ·)) {x : ℚ}
    (hx : x ∈ l) (h : l ≠ []) : x ≤ l.getLast h := by
  rcases List.mem_iff_get.mp hx with ⟨⟨i, hi⟩, rfl⟩
  rw [List.getLast_eq_get]
  rcases Nat.lt_or_ge i (l.length - 1) with hlt | hge
  · exact List.pairwise_iff_get.mp hs ⟨i, hi⟩ ⟨l.length - 1, by omega⟩ hlt
  · have : i = l.length - 1 := by omega
    subst this
    rfl

/-- C6: the Bonferroni threshold calculator returns `alpha` divided by the
count of finite (non-NaN) entries of the p-value vector; in particular for
p-values `[0.01, 0.02, NaN, 0.5]` and `alpha = 0.05` it returns `0.05/3`. -/
theorem C6_bonferroni_threshold :
    (∀ (p : List (Option ℚ)) (alpha : ℚ),
        get_bon_thresh p alpha = alpha / (p.filterMap id).length) ∧
      get_bon_thresh [some (1/100), some (1/50), none, some (1/2)] (1/20) = (1/20) / 3 := by
  constructor
  · intro p alpha
    rw [get_bon_thresh, sum_indicator_eq_countFinite]
  · norm_num [get_bon_thresh]

/-- C1 counterexample: for p-values `[0.001, 0.9]` and `alpha = 0.05`,
rank 1 (value `0.001`) is the only rank whose sorted p-value is `≤` its
critical value, yet both `get_fdr_thresh` and `get_bhy_thresh` return `0.9`,
the value at the first rank that *exceeds* its critical value — not the
p-value at the last rank where the sorted p-value is `≤` its critical value,
as the claim asserts. -/
theorem C1_counterexample_first_failing_returned :
    get_fdr_thresh [some (1/1000), some (9/10)] (1/20) = .ok (9/10) ∧
    get_bhy_thresh [some (1/1000), some (9/10)] (1/20) = .ok (9/10) ∧
    ((1 : ℚ)/1000 ≤ fdrCrit (1/20) 2 0) ∧ ¬ ((9 : ℚ)/10 ≤ fdrCrit (1/20) 2 1) ∧
    ((1 : ℚ)/1000 ≤ bhyCrit (1/20) 2 0) ∧ ¬ ((9 : ℚ)/10 ≤ bhyCrit (1/20) 2 1) ∧
    (9 : ℚ)/10 ≠ 1/1000 := by
  have hsf : sortedFinite [some (1/1000), some (9/10)] = [1/1000, 9/10] := by
    norm_num [sortedFinite, List.insertionSort, List.orderedInsert]
  refine ⟨?_, ?_, ?_, ?_, ?_, ?_, ?_⟩
  · rw [get_fdr_thresh, hsf, if_neg (by simp : ¬ ([(1:ℚ)/1000, 9/10] = []))]
    norm_num [breakIdx, fdrCrit, List.getD_cons_succ, List.getD_cons_zero]
  · rw [get_bhy_thresh, hsf, if_neg (by simp : ¬ ([(1:ℚ)/1000, 9/10] = []))]
    norm_num [breakIdx, bhyCrit, List.getD_cons_succ, List.getD_cons_zero]
  · norm_num [fdrCrit]
  · norm_num [fdrCrit]
  · norm_num [bhyCrit]
  · norm_num [bhyCrit]
  · norm_num

/-- C1 (amended): the FDR step-up calculator (and identically the BHY variant
with critical value `alpha*i/(8.1*m)`) scans the ascending-sorted finite
p-values from the smallest rank upward and returns the sorted p-value at the
rank where the scan stops: the first rank whose sorted p-value exceeds its
critical value `alpha*i/m`, or the largest rank when every sorted p-value is
`≤` its critical value. (The original claim said the returned threshold is the
p-value at the last rank where the sorted value is `≤` its critical value; the
code instead returns the value at the break rank itself.) -/
theorem C1_step_up_returns_value_at_break :
    (∀ (p : List (Option ℚ)) (alpha : ℚ) (i : ℕ), i < (sortedFinite p).length →
        (∀ k, k < i →
          (sortedFinite p).getD k 0 ≤ fdrCrit alpha (sortedFinite p).length k) →
        ¬ ((sortedFinite p).getD i 0 ≤ fdrCrit alpha (sortedFinite p).length i) →
        get_fdr_thresh p alpha = .ok ((sortedFinite p).getD i 0)) ∧
    (∀ (p : List (Option ℚ)) (alpha : ℚ), sortedFinite p ≠ [] →
        (∀ k, k < (sortedFinite p).length →
          (sortedFinite p).getD k 0 ≤ fdrCrit alpha (sortedFinite p).length k) →
        get_fdr_thresh p alpha = .ok ((sortedFinite p).getD ((sortedFinite p).length - 1) 0)) ∧
    (∀ (p : List (Option ℚ)) (alpha : ℚ) (i : ℕ), i < (sortedFinite p).length →
        (∀ k, k < i →
          (sortedFinite p).getD k 0 ≤ bhyCrit alpha (sortedFinite p).length k) →
        ¬ ((sortedFinite p).getD i 0 ≤ bhyCrit alpha (sortedFinite p).length i) →
        get_bhy_thresh p alpha = .ok ((sortedFinite p).getD i 0)) ∧
    (∀ (p : List (Option ℚ)) (alpha : ℚ), sortedFinite p ≠ [] →
        (∀ k, k < (sortedFinite p).length →
          (sortedFinite p).getD k 0 ≤ bhyCrit alpha (sortedFinite p).length k) →
        get_bhy_thresh p alpha = .ok ((sortedFinite p).getD ((sortedFinite p).length - 1) 0)) := by
  refine ⟨?_, ?_, ?_, ?_⟩
  · intro p alpha i hi hpre hfail
    have hne : sortedFinite p ≠ [] := by
      intro h
      rw [h] at hi
      simp at hi
    rw [get_fdr_thresh, if_neg hne, stepUp_getD_of_fail hi hpre hfail]
  · intro p alpha hne hall
    rw [get_fdr_thresh, if_neg hne, stepUp_getD_of_all hne hall]
  · intro p alpha i hi hpre hfail
    have hne : sortedFinite p ≠ [] := by
      intro h
      rw [h] at hi
      simp at hi
    rw [get_bhy_thresh, if_neg hne, stepUp_getD_of_fail hi hpre hfail]
  · intro p alpha hne hall
    rw [get_bhy_thresh, if_neg hne, stepUp_getD_of_all hne hall]

/-- C1 witness: the amended break-rank semantics evaluated at concrete inputs:
for `[0.001, 0.9]` and `alpha = 0.05` the scan stops at rank 2 and both
functions return `0.9`; for inputs whose every rank passes, the value at the
largest rank is returned. -/
theorem C1_witness_break_instances :
    get_fdr_thresh [some (1/1000), some (9/10)] (1/20) = .ok (9/10) ∧
    get_bhy_thresh [some (1/1000), some (9/10)] (1/20) = .ok (9/10) ∧
    get_fdr_thresh [some (1/100)] (1/20) = .ok (1/100) ∧
    get_bhy_thresh [some (1/2000)] (1/20) = .ok (1/2000) := by
  have hsf : sortedFinite [some (1/1000), some (9/10)] = [1/1000, 9/10] := by
    norm_num [sortedFinite, List.insertionSort, List.orderedInsert]
  have hsf2 : sortedFinite [some (1/100)] = [1/100] := by
    norm_num [sortedFinite, List.insertionSort, List.orderedInsert]
  have hsf3 : sortedFinite [some (1/2000)] = [1/2000] := by
    norm_num [sortedFinite, List.insertionSort, List.orderedInsert]
  refine ⟨?_, ?_, ?_, ?_⟩
  · have h := C1_step_up_returns_value_at_break.1 [some (1/1000), some (9/10)] (1/20) 1
      (by rw [hsf]; norm_num)
      (by
        intro k hk
        interval_cases k
        rw [hsf]
        norm_num [fdrCrit])
      (by rw [hsf]; norm_num [fdrCrit])
    rw [h, hsf]
    norm_num [List.getD_cons_succ, List.getD_cons_zero]
  · have h := C1_step_up_returns_value_at_break.2.2.1 [some (1/1000), some (9/10)] (1/20) 1
      (by rw [hsf]; norm_num)
      (by
        intro k hk
        interval_cases k
        rw [hsf]
        norm_num [bhyCrit])
      (by rw [hsf]; norm_num [bhyCrit])
    rw [h, hsf]
    norm_num [List.getD_cons_succ, List.getD_cons_zero]
  · have h := C1_step_up_returns_value_at_break.2.1 [some (1/100)] (1/20)
      (by rw [hsf2]; norm_num)
      (by
        intro k hk
        rw [hsf2] at hk ⊢
        have hk0 : k = 0 := by simpa using hk
        subst hk0
        norm_num [fdrCrit])
    rw [h, hsf2]
    norm_num [List.getD_cons_zero]
  · have h := C1_step_up_returns_value_at_break.2.2.2 [some (1/2000)] (1/20)
      (by rw [hsf3]; norm_num)
      (by
        intro k hk
        rw [hsf3] at hk ⊢
        have hk0 : k = 0 := by simpa using hk
        subst hk0
        norm_num [bhyCrit])
    rw [h, hsf3]
    norm_num [List.getD_cons_zero]

/-- C10: for every p-value vector with at least one finite entry,
`get_fdr_thresh` and `get_bhy_thresh` return a value that is an element of the
input vector (never a computed critical value); when every sorted finite
p-value satisfies its critical value the largest finite p-value is returned;
and for an input with zero finite entries the functions raise an exception
(here the `.error` case: Python's `NameError` on the unbound loop variable)
rather than returning a threshold or sentinel. -/
theorem C10_step_up_safety :
    (∀ (p : List (Option ℚ)) (alpha : ℚ), (∃ x : ℚ, some x ∈ p) →
        (∃ v, get_fdr_thresh p alpha = .ok v ∧ some v ∈ p) ∧
        (∃ v, get_bhy_thresh p alpha = .ok v ∧ some v ∈ p)) ∧
    (∀ (p : List (Option ℚ)) (alpha : ℚ), sortedFinite p ≠ [] →
        (∀ k, k < (sortedFinite p).length →
          (sortedFinite p).getD k 0 ≤ fdrCrit alpha (sortedFinite p).length k) →
        ∃ v, get_fdr_thresh p alpha = .ok v ∧ some v ∈ p ∧
          ∀ x : ℚ, some x ∈ p → x ≤ v) ∧
    (∀ (p : List (Option ℚ)) (alpha : ℚ), sortedFinite p ≠ [] →
        (∀ k, k < (sortedFinite p).length →
          (sortedFinite p).getD k 0 ≤ bhyCrit alpha (sortedFinite p).length k) →
        ∃ v, get_bhy_thresh p alpha = .ok v ∧ some v ∈ p ∧
          ∀ x : ℚ, some x ∈ p → x ≤ v) ∧
    (∀ (p : List (Option ℚ)) (alpha : ℚ), (∀ x : ℚ, some x ∉ p) →
        (∃ msg, get_fdr_thresh p alpha = .error msg) ∧
        (∃ msg, get_bhy_thresh p alpha = .error msg)) := by
  have hlast : ∀ (sn : List ℚ) (h : sn ≠ []), sn.getD (sn.length - 1) 0 = sn.getLast h := by
    intro sn h
    have hlt : sn.length - 1 < sn.length := by
      have : sn.length ≠ 0 := by simpa using h
      omega
    rw [getD_eq_get hlt, List.getLast_eq_get]
  refine ⟨?_, ?_, ?_, ?_⟩
  · intro p alpha ⟨x, hx⟩
    have hne : sortedFinite p ≠ [] := by
      intro h
      exact (sortedFinite_eq_nil.mp h) x hx
    constructor
    · exact ⟨(sortedFinite p).getD
          (breakIdx (fdrCrit alpha (sortedFinite p).length) 0 (sortedFinite p)) 0,
        by rw [get_fdr_thresh, if_neg hne],
        mem_sortedFinite.mp
          (@stepUp_getD_mem (sortedFinite p) (fdrCrit alpha (sortedFinite p).length) hne)⟩
    · exact ⟨(sortedFinite p).getD
          (breakIdx (bhyCrit alpha (sortedFinite p).length) 0 (sortedFinite p)) 0,
        by rw [get_bhy_thresh, if_neg hne],
        mem_sortedFinite.mp
          (@stepUp_getD_mem (sortedFinite p) (bhyCrit alpha (sortedFinite p).length) hne)⟩
  · intro p alpha hne hall
    refine ⟨(sortedFinite p).getLast hne, ?_, ?_, ?_⟩
    · rw [get_fdr_thresh, if_neg hne, stepUp_getD_of_all hne hall, hlast _ hne]
    · exact mem_sortedFinite.mp (List.getLast_mem hne)
    · intro x hx
      exact le_getLast_of_sorted (sortedFinite_sorted p) (mem_sortedFinite.mpr hx) hne
  · intro p alpha hne hall
    refine ⟨(sortedFinite p).getLast hne, ?_, ?_, ?_⟩
    · rw [get_bhy_thresh, if_neg hne, stepUp_getD_of_all hne hall, hlast _ hne]
    · exact mem_sortedFinite.mp (List.getLast_mem hne)
    · intro x hx
      exact le_getLast_of_sorted (sortedFinite_sorted p) (mem_sortedFinite.mpr hx) hne
  · intro p alpha h
    have hnil : sortedFinite p = [] := sortedFinite_eq_nil.mpr h
    constructor
    · exact ⟨_, by rw [get_fdr_thresh, if_pos hnil]⟩
    · exact ⟨_, by rw [get_bhy_thresh, if_pos hnil]⟩

/-- C10 witness: the safety properties evaluated at concrete inputs. -/
theorem C10_witness_instances :
    (∃ v, get_fdr_thresh [none, some (1/4)] (1/20) = .ok v ∧ some v ∈ [none, some (1/4)]) ∧
    (∃ v, get_fdr_thresh [some (1/100), some (1/30)] (1/20) = .ok v ∧
      some v ∈ [some (1/100), some (1/30)] ∧
      ∀ x : ℚ, some x ∈ [some (1/100), some (1/30)] → x ≤ v) ∧
    (∃ msg, get_fdr_thresh ([none, none] : List (Option ℚ)) (1/20) = .error msg) := by
  have hsf : sortedFinite [some (1/100), some (1/30)] = [1/100, 1/30] := by
    norm_num [sortedFinite, List.insertionSort, List.orderedInsert]
  refine ⟨?_, ?_, ?_⟩
  · exact (C10_step_up_safety.1 [none, some (1/4)] (1/20) ⟨1/4, by simp⟩).1
  · refine C10_step_up_safety.2.1 [some (1/100), some (1/30)] (1/20)
      (by rw [hsf]; simp) ?_
    intro k hk
    rw [hsf] at hk ⊢
    have hk2 : k = 0 ∨ k = 1 := by
      simp only [List.length_cons, List.length_nil] at hk
      omega
    rcases hk2 with rfl | rfl <;> norm_num [fdrCrit]
  · exact (C10_step_up_safety.2.2.2 ([none, none] : List (Option ℚ)) (1/20) (by simp)).1

/-! ### Per-phenotype regression dispatch
(`run_phewas`, pyPhewasCorev2.py lines 400-458).  After sorting the group
data by `id`, the loop takes for each phenotype column `j` the aggregate
column `phen_vector1 = fm[0][:, j]`; here `v r` is that column's value for
the subject in row `r` (rows `0..n-1`, roster order) and `genotype r` the
subject's exposure label. -/

/-- How one phenotype column is handled by the loop body (lines 431-449):
`sentinel` = fewer than 6 strictly-positive subjects, no fit, NaN row;
`regularized` = `index in inds`, `calculate_odds_ratio` with `lr=1` (the
L1-regularized fit, penalty 0.1); `ordinary` = `calculate_odds_ratio` with
`lr=0` (plain maximum-likelihood logit). -/
inductive ColumnFit where
  | sentinel
  | regularized
  | ordinary
deriving DecidableEq, Repr

/-- `np.where(phen_vector1 > 0)[0].shape[0]`: how many subjects have a
strictly positive aggregate value in this column. -/
def positiveCount (v : ℕ → ℚ) (n : ℕ) : ℕ :=
  ((List.range n).filter (fun r => decide (0 < v r))).length

/-- `control.any(axis=0)` (for `k = 0`) / `disease.any(axis=0)` (for `k = 1`)
restricted to one column: does some subject with exposure label `k` have a
nonzero aggregate value. -/
def groupAny (v : ℕ → ℚ) (genotype : ℕ → ℕ) (n : ℕ) (k : ℕ) : Bool :=
  (List.range n).any (fun r => decide (genotype r = k ∧ v r ≠ 0))

/-- The separation detector (line 426): column `j` is in `inds` iff
`(control.any(axis=0) & ~disease.any(axis=0)) |
(~control.any(axis=0) & disease.any(axis=0))` holds for it. -/
def separatedCol (v : ℕ → ℚ) (genotype : ℕ → ℕ) (n : ℕ) : Bool :=
  (groupAny v genotype n 0 && !groupAny v genotype n 1) ||
  (!groupAny v genotype n 0 && groupAny v genotype n 1)

/-- The dispatch of the loop body: fit only when more than 5 subjects are
positive, and use the regularized mode exactly for the columns the
separation detector flagged. -/
def routeColumn (v : ℕ → ℚ) (genotype : ℕ → ℕ) (n : ℕ) : ColumnFit :=
  if 5 < positiveCount v n then
    (if separatedCol v genotype n then .regularized else .ordinary)
  else .sentinel

/-- One recorded regression row `od = [-log10(p), p, beta, conf_int, stderr]`;
`none` stands for `np.nan` / an undefined field. -/
structure RegResult where
  neglogp : Option ℚ
  p : Option ℚ
  beta : Option ℚ
  conf : Option (ℚ × ℚ)
  stderr : Option ℚ
deriving DecidableEq, Repr

/-- The sentinel row recorded when no fit is run (lines 444-449):
`odds = 0; p = nan; stderr = nan; od = [nan, p, nan, nan, stderr]`. -/
def sentinelResult : RegResult := ⟨none, none, none, none, none⟩

/-- The loop body's result for one column, with the outcome of
`calculate_odds_ratio` abstracted as an oracle `fit` indexed by whether the
regularized mode (`lr=1`, `true`) or the ordinary mode (`lr=0`, `false`) was
requested. -/
def runColumn (v : ℕ → ℚ) (genotype : ℕ → ℕ) (n : ℕ) (fit : Bool → RegResult) :
    RegResult :=
  match routeColumn v genotype n with
  | .sentinel => sentinelResult
  | .regularized => fit true
  | .ordinary => fit false

theorem groupAny_iff {v : ℕ → ℚ} {genotype : ℕ → ℕ} {n k : ℕ} :
    groupAny v genotype n k = true ↔ ∃ r, r < n ∧ genotype r = k ∧ v r ≠ 0 := by
  simp [groupAny, List.any_eq_true, List.mem_range]

theorem separatedCol_iff {v : ℕ → ℚ} {genotype : ℕ → ℕ} {n : ℕ} :
    separatedCol v genotype n = true ↔
      ((∃ r, r < n ∧ genotype r = 0 ∧ v r ≠ 0) ∧
        ¬ (∃ r, r < n ∧ genotype r = 1 ∧ v r ≠ 0)) ∨
      (¬ (∃ r, r < n ∧ genotype r = 0 ∧ v r ≠ 0) ∧
        (∃ r, r < n ∧ genotype r = 1 ∧ v r ≠ 0)) := by
  cases hA : groupAny v genotype n 0 <;> cases hB : groupAny v genotype n 1 <;>
    simp_all only [separatedCol, Bool.and_eq_true, Bool.or_eq_true, Bool.not_true,
      Bool.not_false, Bool.false_and, Bool.and_false, Bool.true_and, Bool.and_true,
      Bool.or_false, Bool.false_or, Bool.or_self] <;>
    constructor <;> intro h <;>
    simp_all [← groupAny_iff, hA, hB]

/-- C3: for every phenotype column with fewer than 6 subjects having a
strictly positive aggregate value, fitting is skipped and the sentinel result
(all fields NaN/undefined) is recorded; with exactly 5 positive subjects the
sentinel results, and with 6 or more a fit is attempted (the loop calls
`calculate_odds_ratio` with `lr` chosen by the separation detector). -/
theorem C3_skip_rule :
    (∀ (v : ℕ → ℚ) (genotype : ℕ → ℕ) (n : ℕ),
        routeColumn v genotype n = ColumnFit.sentinel ↔ positiveCount v n ≤ 5) ∧
    (∀ (v : ℕ → ℚ) (genotype : ℕ → ℕ) (n : ℕ),
        positiveCount v n = 5 → routeColumn v genotype n = ColumnFit.sentinel) ∧
    (∀ (v : ℕ → ℚ) (genotype : ℕ → ℕ) (n : ℕ),
        6 ≤ positiveCount v n → routeColumn v genotype n ≠ ColumnFit.sentinel) ∧
    (∀ (v : ℕ → ℚ) (genotype : ℕ → ℕ) (n : ℕ) (fit : Bool → RegResult),
        routeColumn v genotype n = ColumnFit.sentinel →
        runColumn v genotype n fit = sentinelResult) ∧
    (∀ (v : ℕ → ℚ) (genotype : ℕ → ℕ) (n : ℕ) (fit : Bool → RegResult),
        routeColumn v genotype n ≠ ColumnFit.sentinel →
        runColumn v genotype n fit = fit (separatedCol v genotype n)) := by
  have hmain : ∀ (v : ℕ → ℚ) (genotype : ℕ → ℕ) (n : ℕ),
      routeColumn v genotype n = ColumnFit.sentinel ↔ positiveCount v n ≤ 5 := by
    intro v g n
    unfold routeColumn
    by_cases h : 5 < positiveCount v n
    · rw [if_pos h]
      by_cases hs : separatedCol v g n <;> simp [hs] <;> omega
    · rw [if_neg h]
      simp
      omega
  refine ⟨hmain, ?_, ?_, ?_, ?_⟩
  · intro v g n h
    exact (hmain v g n).mpr (by omega)
  · intro v g n h
    intro hc
    have := (hmain v g n).mp hc
    omega
  · intro v g n fit h
    unfold runColumn
    rw [h]
  · intro v g n fit h
    unfold runColumn
    unfold routeColumn at h ⊢
    by_cases hp : 5 < positiveCount v n
    · rw [if_pos hp]
      by_cases hs : separatedCol v g n
      · simp [hs]
      · simp [hs]
    · rw [if_neg hp] at h
      exact absurd rfl h

/-- C4 counterexample: with one unexposed subject whose aggregate value is 1,
the separation detector flags the column (its nonzero set is non-empty and
lies entirely in the unexposed group), yet the column is not routed to the
L1-regularized fit: the more-than-5-positive-subjects filter sends it to the
sentinel without any fit. -/
theorem C4_counterexample_flagged_but_skipped :
    separatedCol (fun _ => 1) (fun _ => 0) 1 = true ∧
    routeColumn (fun _ => 1) (fun _ => 0) 1 = ColumnFit.sentinel ∧
    ColumnFit.sentinel ≠ ColumnFit.regularized := by
  refine ⟨by decide, by decide, by decide⟩

/-- C4 (amended): when every subject's exposure label is 0 or 1, the
separation detector flags exactly those columns whose set of subjects with a
nonzero aggregate value is non-empty and lies entirely within one exposure
group; among the columns that pass the more-than-5-positive-subjects filter,
exactly the flagged ones are routed to the L1-regularized fit (`lr=1`,
penalty 0.1) and the rest to the ordinary maximum-likelihood fit; a flagged
column that fails the filter is not fitted at all (sentinel), so "every
flagged column is routed to the L1 fit" holds only among fitted columns. -/
theorem C4_separation_flags_and_routing :
    (∀ (v : ℕ → ℚ) (genotype : ℕ → ℕ) (n : ℕ),
        (∀ r, r < n → genotype r = 0 ∨ genotype r = 1) →
        (separatedCol v genotype n = true ↔
          (∃ r, r < n ∧ v r ≠ 0) ∧
            ((∀ r, r < n → v r ≠ 0 → genotype r = 0) ∨
             (∀ r, r < n → v r ≠ 0 → genotype r = 1)))) ∧
    (∀ (v : ℕ → ℚ) (genotype : ℕ → ℕ) (n : ℕ),
        5 < positiveCount v n →
        (routeColumn v genotype n = ColumnFit.regularized ↔
          separatedCol v genotype n = true)) ∧
    (∀ (v : ℕ → ℚ) (genotype : ℕ → ℕ) (n : ℕ),
        5 < positiveCount v n →
        (routeColumn v genotype n = ColumnFit.ordinary ↔
          separatedCol v genotype n = false)) ∧
    (∀ (v : ℕ → ℚ) (genotype : ℕ → ℕ) (n : ℕ),
        routeColumn v genotype n = ColumnFit.regularized →
        separatedCol v genotype n = true) := by
  refine ⟨?_, ?_, ?_, ?_⟩
  · intro v g n hbin
    rw [separatedCol_iff]
    constructor
    · rintro (⟨⟨r0, hr0, hg0, hv0⟩, hnB⟩ | ⟨hnA, ⟨r0, hr0, hg0, hv0⟩⟩)
      · refine ⟨⟨r0, hr0, hv0⟩, Or.inl ?_⟩
        intro r hr hv
        rcases hbin r hr with h0 | h1
        · exact h0
        · exact absurd ⟨r, hr, h1, hv⟩ hnB
      · refine ⟨⟨r0, hr0, hv0⟩, Or.inr ?_⟩
        intro r hr hv
        rcases hbin r hr with h0 | h1
        · exact absurd ⟨r, hr, h0, hv⟩ hnA
        · exact h1
    · rintro ⟨⟨r0, hr0, hv0⟩, hall | hall⟩
      · refine Or.inl ⟨⟨r0, hr0, hall r0 hr0 hv0, hv0⟩, ?_⟩
        rintro ⟨r, hr, hg1, hv⟩
        rw [hall r hr hv] at hg1
        exact absurd hg1 (by decide)
      · refine Or.inr ⟨?_, ⟨r0, hr0, hall r0 hr0 hv0, hv0⟩⟩
        rintro ⟨r, hr, hg0, hv⟩
        rw [hall r hr hv] at hg0
        exact absurd hg0 (by decide)
  · intro v g n hp
    unfold routeColumn
    rw [if_pos hp]
    by_cases hs : separatedCol v g n <;> simp [hs]
  · intro v g n hp
    unfold routeColumn
    rw [if_pos hp]
    by_cases hs : separatedCol v g n <;> simp [hs]
  · intro v g n h
    unfold routeColumn at h
    by_cases hp : 5 < positiveCount v n
    · rw [if_pos hp] at h
      by_cases hs : separatedCol v g n
      · exact hs
      · rw [if_neg hs] at h
        exact absurd h (by decide)
    · rw [if_neg hp] at h
      exact absurd h (by decide)

/-- C4 witness: twelve subjects with alternating exposure, the six exposed
ones positive: the detector flags the column and, the filter being passed,
the column is routed to the regularized fit. -/
theorem C4_witness_routing_instances :
    separatedCol (fun r => if r % 2 = 1 then 1 else 0) (fun r => r % 2) 12 = true ∧
    routeColumn (fun r => if r % 2 = 1 then 1 else 0) (fun r => r % 2) 12 =
      ColumnFit.regularized := by
  constructor
  · decide
  · have h := (C4_separation_flags_and_routing.2.1
      (fun r => if r % 2 = 1 then 1 else 0) (fun r => r % 2) 12 (by decide)).mpr (by decide)
    exact h

/-! ### The regression engine `calculate_odds_ratio`
(pyPhewasCorev2.py lines 319-397).  Python strings are embedded as `List Char`
so the formula manipulation (`split`, `strip`, `replace`) is executable and
provable. -/

/-- A Python string. -/
abbrev PyStr := List Char

/-- The first occurrence of `sep` in `s`: `some (pre, post)` splits
`s = pre ++ sep ++ post` at the leftmost occurrence; `none` when `sep` does
not occur.  (Used only with non-empty `sep`.) -/
def splitFirst (sep : PyStr) : PyStr → Option (PyStr × PyStr)
  | [] => none
  | c :: rest =>
    if sep.isPrefixOf (c :: rest) then some ([], (c :: rest).drop sep.length)
    else (splitFirst sep rest).map (fun pr => (c :: pr.1, pr.2))

/-- Python `s.split(sep)` for non-empty `sep`: cut at every occurrence, left
to right.  The fuel argument (`s.length` at the top call) only bounds the
recursion: each cut strictly shortens the remainder. -/
def pySplitAux (sep : PyStr) : ℕ → PyStr → List PyStr
  | 0, s => [s]
  | fuel + 1, s =>
    match splitFirst sep s with
    | none => [s]
    | some (pre, post) => pre :: pySplitAux sep fuel post

/-- Python `s.split(sep)` (non-empty `sep`). -/
def pySplit (sep s : PyStr) : List PyStr := pySplitAux sep s.length s

/-- Python `str.strip()` whitespace (the characters occurring here). -/
def isPySpace (c : Char) : Bool := c = ' ' || c = '\t' || c = '\n' || c = '\r'

/-- Python `s.strip()`. -/
def pyStrip (s : PyStr) : PyStr :=
  ((s.dropWhile isPySpace).reverse.dropWhile isPySpace).reverse

/-- Python `s.replace(" ", "")`: removing every one-character occurrence of a
space is filtering the spaces out. -/
def pyRemoveSpaces (s : PyStr) : PyStr := s.filter (fun c => c != ' ')

/-- The model formula built by `calculate_odds_ratio` (lines 347-358).
`covariates` is replaced by `'+' + covariates` when non-empty; with a custom
`response` the formula is `response + '~ y + genotype' + covariates` (no
space before the `~`), or `response + '~ y + phe + genotype' + covariates`
when the third phenotype vector is non-zero; with the default response it is
`'genotype ~ y' + covariates` or `'genotype ~ y + phe' + covariates`. -/
def buildFormula (response covariates : PyStr) (hasPhe : Bool) : PyStr :=
  let cov := if covariates = [] then [] else '+' :: covariates
  if response ≠ [] then
    (if hasPhe then response ++ "~ y + phe + genotype".toList
     else response ++ "~ y + genotype".toList) ++ cov
  else
    (if hasPhe then "genotype ~ y + phe".toList else "genotype ~ y".toList) ++ cov

/-- The statistics the code extracts for the `y` term from a fitted model:
`p = pvalues.y`, `beta = params.y`, the confidence bounds
`conf[0]['y']`, `conf[1]['y']`, and `stderr = bse.y`. -/
structure FitStats where
  p : ℚ
  beta : ℚ
  confLow : ℚ
  confHigh : ℚ
  stderr : ℚ
deriving DecidableEq, Repr

/-- The outcome of one statsmodels fit together with the `.y` extraction:
success, a `ValueError` (non-convergence, singular design, ...), or any
other exception. -/
inductive FitOutcome where
  | ok (s : FitStats)
  | valueError (msg : String)
  | otherError (msg : String)
deriving DecidableEq, Repr

/-- One line printed by the exception handlers of `calculate_odds_ratio`:
the exception's message (`print(ve)` / `print(e)`) or the mode line
`print('lr = %d' % lr)`. -/
inductive Diag where
  | excMessage (msg : String)
  | lrMode (lr : ℕ)
deriving DecidableEq, Repr

/-- What the `od` list of `calculate_odds_ratio` holds: the extracted
statistics (`od = [-log10(p), p, params.y, conf, bse.y]`, all determined by
the `FitStats`) or the NaN sentinel `[nan, nan, nan, nan, nan]`. -/
inductive OddsResult where
  | stats (s : FitStats)
  | sentinel
deriving DecidableEq, Repr

/-- The try-block of `calculate_odds_ratio` (lines 359-383).  The numeric
outcome of each statsmodels call is an oracle: `fitLogit f` stands for
`smf.logit(f, data).fit(disp=False)` (`lr=0`), `fitLogitBfgs f` for
`smf.logit(f, data).fit(method='bfgs', disp=False)` (any other `lr`), and
`fitReg dep exog alpha` for
`sm.Logit(data[dep], data[exog]).fit_regularized(method='l1', alpha=0.1,...)`
(`lr=1`, the fixed penalty 0.1 passed as `1/10`); `cols c` says whether `c`
is a column of the `data` frame, a failed `data[...]` lookup being a
`KeyError`.  In the `lr=1` branch `f1 = f.split(' ~ ')` with fewer than two
pieces makes the assignment to `f1[1]` raise an `IndexError`. -/
def fitBranch (lr : ℕ) (f : PyStr)
    (fitLogit : PyStr → FitOutcome) (fitLogitBfgs : PyStr → FitOutcome)
    (fitReg : PyStr → List PyStr → ℚ → FitOutcome)
    (cols : PyStr → Bool) : FitOutcome :=
  if lr = 0 then fitLogit f
  else if lr = 1 then
    match pySplit " ~ ".toList f with
    | f0 :: f1 :: _ =>
      let dep := pyStrip f0
      let exog := pySplit ['+'] (pyRemoveSpaces f1)
      if cols dep then
        if exog.all cols then fitReg dep exog (1/10)
        else FitOutcome.otherError "KeyError"
      else FitOutcome.otherError "KeyError"
    | _ => FitOutcome.otherError "IndexError: list index out of range"
  else fitLogitBfgs f

/-- Model of `calculate_odds_ratio` (lines 319-397): build the formula, run
the branch for the requested `lr`, and push the outcome through the
exception handlers: a `ValueError` prints its message and the mode line
`'lr = %d' % lr` and substitutes the NaN sentinel; any other exception prints
only its message and substitutes the NaN sentinel; nothing propagates. -/
def calculate_odds_ratio (response covariates : PyStr) (hasPhe : Bool) (lr : ℕ)
    (fitLogit : PyStr → FitOutcome) (fitLogitBfgs : PyStr → FitOutcome)
    (fitReg : PyStr → List PyStr → ℚ → FitOutcome)
    (cols : PyStr → Bool) : OddsResult × List Diag :=
  match fitBranch lr (buildFormula response covariates hasPhe)
      fitLogit fitLogitBfgs fitReg cols with
  | .ok s => (.stats s, [])
  | .valueError msg => (.sentinel, [.excMessage msg, .lrMode lr])
  | .otherError msg => (.sentinel, [.excMessage msg])

/-- `sep` occurs nowhere in `s`. -/
def noOcc (sep s : PyStr) : Prop := splitFirst sep s = none

theorem noOcc_cons {sep : PyStr} {c : Char} {s : PyStr} :
    noOcc sep (c :: s) ↔ ¬ sep <+: (c :: s) ∧ noOcc sep s := by
  unfold noOcc
  rw [splitFirst]
  by_cases h : sep.isPrefixOf (c :: s)
  · simp [h, List.isPrefixOf_iff_prefix.mp h]
  · rw [if_neg h, Option.map_eq_none']
    simp only [← List.isPrefixOf_iff_prefix, h]
    simp

theorem noOcc_iff_suffixes {sep : PyStr} (hsep : sep ≠ []) :
    ∀ {s : PyStr}, noOcc sep s ↔ ∀ t, t <:+ s → ¬ sep <+: t
  | [] => by
    constructor
    · intro _ t ht hpre
      rw [List.suffix_nil.mp ht] at hpre
      exact hsep (List.prefix_nil.mp hpre)
    · intro _
      rfl
  | c :: s => by
    rw [noOcc_cons, noOcc_iff_suffixes hsep]
    constructor
    · rintro ⟨h1, h2⟩ t ht
      rcases List.suffix_cons_iff.mp ht with rfl | ht'
      · exact h1
      · exact h2 t ht'
    · intro h
      exact ⟨h _ (List.suffix_refl _),
        fun t ht => h t (List.suffix_cons_iff.mpr (Or.inr ht))⟩

theorem noOcc_append {sep : PyStr} (hsep : sep ≠ []) :
    ∀ (a : PyStr) {b : PyStr},
      (∀ t, t <:+ a → t ≠ [] → ¬ sep <+: (t ++ b)) → noOcc sep b →
      noOcc sep (a ++ b)
  | [], b, _, hb => hb
  | c :: a', b, ha, hb => by
    rw [List.cons_append, noOcc_cons]
    constructor
    · exact fun hpre => ha (c :: a') (List.suffix_refl _) (by simp) (by simpa using hpre)
    · exact noOcc_append hsep a'
        (fun t ht hne => ha t (ht.trans (List.suffix_cons c a')) hne) hb

theorem pySplit_eq_single {sep s : PyStr} (h : noOcc sep s) :
    pySplit sep s = [s] := by
  unfold pySplit
  cases s with
  | nil => rfl
  | cons c rest =>
    rw [List.length_cons, pySplitAux, h]

theorem sepTilde_eq : (" ~ ".toList : PyStr) = ' ' :: '~' :: ' ' :: [] := rfl

/-- Every middle piece and covariate tail the formula builder can append
after a custom response keeps `' ~ '` out of the result: the middle literal
starts with `'~'` (no space before it) and the covariate tail, when present,
starts with the joining `'+'`. -/
theorem noOcc_append_middle {mid cov : PyStr}
    (hmid : ∃ mrest, mid = '~' :: mrest)
    (hmidOcc : noOcc " ~ ".toList mid)
    (hcov : cov = [] ∨ ∃ cv, cov = '+' :: cv ∧ noOcc " ~ ".toList cv) :
    noOcc " ~ ".toList (mid ++ cov) := by
  have hsep : (" ~ ".toList : PyStr) ≠ [] := by decide
  refine noOcc_append hsep mid ?_ ?_
  · intro t ht htne hpre
    cases t with
    | nil => exact htne rfl
    | cons c t' =>
      cases t' with
      | nil =>
        rw [List.singleton_append, sepTilde_eq, List.cons_prefix_cons] at hpre
        rcases hcov with rfl | ⟨cv, rfl, _⟩
        · exact absurd (List.prefix_nil.mp hpre.2) (by decide)
        · rw [List.cons_prefix_cons] at hpre
          exact absurd hpre.2.1 (by decide)
      | cons d t'' =>
        cases t'' with
        | nil =>
          simp only [List.cons_append, List.nil_append] at hpre
          rw [sepTilde_eq, List.cons_prefix_cons, List.cons_prefix_cons] at hpre
          rcases hcov with rfl | ⟨cv, rfl, _⟩
          · exact absurd (List.prefix_nil.mp hpre.2.2) (by decide)
          · rw [List.cons_prefix_cons] at hpre
            exact absurd hpre.2.2.1 (by decide)
        | cons e t3 =>
          simp only [List.cons_append] at hpre
          rw [sepTilde_eq, List.cons_prefix_cons, List.cons_prefix_cons,
            List.cons_prefix_cons] at hpre
          obtain ⟨rfl, rfl, rfl, -⟩ := hpre
          exact ((noOcc_iff_suffixes hsep).mp hmidOcc _ ht)
            (by rw [sepTilde_eq]; exact ⟨t3, rfl⟩)
  · rcases hcov with rfl | ⟨cv, rfl, hcv⟩
    · rfl
    · rw [noOcc_cons]
      refine ⟨?_, hcv⟩
      intro hpre
      rw [sepTilde_eq, List.cons_prefix_cons] at hpre
      exact absurd hpre.1 (by decide)

/-- With a non-empty custom response that contains no `' ~ '` and does not
end with a space, and a covariate string containing no `' ~ '`, the built
formula contains no occurrence of `' ~ '` at all: the response is glued to
`'~ y ...'` with no space before the tilde. -/
theorem noOcc_formula {response covariates : PyStr}
    (hne : response ≠ [])
    (hresp : noOcc " ~ ".toList response)
    (hlast : response.getLast? ≠ some ' ')
    (hcov : noOcc " ~ ".toList covariates) (hasPhe : Bool) :
    noOcc " ~ ".toList (buildFormula response covariates hasPhe) := by
  have hsep : (" ~ ".toList : PyStr) ≠ [] := by decide
  have hcovs : (if covariates = [] then ([] : PyStr) else '+' :: covariates) = [] ∨
      ∃ cv, (if covariates = [] then ([] : PyStr) else '+' :: covariates) = '+' :: cv ∧
        noOcc " ~ ".toList cv := by
    by_cases h : covariates = []
    · exact Or.inl (by rw [if_pos h])
    · exact Or.inr ⟨covariates, by rw [if_neg h], hcov⟩
  have main : ∀ (mid : PyStr), (∃ mrest, mid = '~' :: mrest) →
      noOcc " ~ ".toList mid →
      noOcc " ~ ".toList
        (response ++ (mid ++ (if covariates = [] then [] else '+' :: covariates))) := by
    intro mid hmid hmidOcc
    refine noOcc_append hsep response ?_ (noOcc_append_middle hmid hmidOcc hcovs)
    intro t ht htne hpre
    cases t with
    | nil => exact htne rfl
    | cons c t' =>
      cases t' with
      | nil =>
        rw [List.singleton_append, sepTilde_eq, List.cons_prefix_cons] at hpre
        obtain ⟨rfl, -⟩ := hpre
        obtain ⟨u, hu⟩ := ht
        rw [← hu, List.getLast?_concat] at hlast
        exact hlast rfl
      | cons d t'' =>
        cases t'' with
        | nil =>
          simp only [List.cons_append, List.nil_append] at hpre
          rw [sepTilde_eq, List.cons_prefix_cons, List.cons_prefix_cons] at hpre
          obtain ⟨-, rfl, hpre3⟩ := hpre
          obtain ⟨mrest, rfl⟩ := hmid
          rw [List.cons_append, List.cons_prefix_cons] at hpre3
          exact absurd hpre3.1 (by decide)
        | cons e t3 =>
          simp only [List.cons_append] at hpre
          rw [sepTilde_eq, List.cons_prefix_cons, List.cons_prefix_cons,
            List.cons_prefix_cons] at hpre
          obtain ⟨rfl, rfl, rfl, -⟩ := hpre
          exact ((noOcc_iff_suffixes hsep).mp hresp _ ht)
            (by rw [sepTilde_eq]; exact ⟨t3, rfl⟩)
  unfold buildFormula
  rw [if_pos hne]
  cases hasPhe with
  | true =>
    rw [if_pos rfl, List.append_assoc]
    exact main _ ⟨" y + phe + genotype".toList, rfl⟩ (by unfold noOcc; decide)
  | false =>
    rw [if_neg (by decide), List.append_assoc]
    exact main _ ⟨" y + genotype".toList, rfl⟩ (by unfold noOcc; decide)

/-- A fit oracle that always fails with a generic (non-`ValueError`)
exception, as a singular design matrix does. -/
def exFitSingular : PyStr → FitOutcome := fun _ => .otherError "Singular matrix"

/-- A fit oracle that always fails with a `ValueError`. -/
def exFitValueErr : PyStr → FitOutcome := fun _ => .valueError "Perfect separation detected, results not available"

/-- Extracted statistics of one successful example fit (exact rationals). -/
def exStats : FitStats := ⟨1, 2, 0, 3, 1⟩

/-- A regularized-fit oracle that always succeeds with `exStats`. -/
def exFitRegOk : PyStr → List PyStr → ℚ → FitOutcome := fun _ _ _ => .ok exStats

/-- A regularized-fit oracle that always fails generically. -/
def exFitRegFail : PyStr → List PyStr → ℚ → FitOutcome := fun _ _ _ => .otherError "Singular matrix"

/-- A data frame containing every column. -/
def exColsAll : PyStr → Bool := fun _ => true

/-- C8 counterexample: a generic (non-`ValueError`) exception from the
ordinary fit is captured and the sentinel substituted, but the printed
diagnostic is only the exception's message: it does not include the
attempted fitting mode, which only the `ValueError` handler prints. -/
theorem C8_counterexample_mode_missing_for_generic :
    calculate_odds_ratio [] [] false 0 exFitSingular exFitSingular exFitRegFail exColsAll =
      (OddsResult.sentinel, [Diag.excMessage "Singular matrix"]) ∧
    Diag.lrMode 0 ∉ [Diag.excMessage "Singular matrix"] := by
  exact ⟨by decide, by decide⟩

/-- C8 (amended): for every phenotype whose fit raises any exception, the
regression engine captures it, returns the NaN sentinel result instead of
propagating (so the loop always continues to the next phenotype), and emits
a diagnostic; the diagnostic includes the attempted fitting mode for
`ValueError` exceptions, while any other exception emits only the
exception's message without the mode. -/
theorem C8_fit_exceptions_captured :
    (∀ (response covariates : PyStr) (hasPhe : Bool) (lr : ℕ)
        (fitLogit fitLogitBfgs : PyStr → FitOutcome)
        (fitReg : PyStr → List PyStr → ℚ → FitOutcome) (cols : PyStr → Bool),
        (∃ s, fitBranch lr (buildFormula response covariates hasPhe)
            fitLogit fitLogitBfgs fitReg cols = .ok s ∧
          calculate_odds_ratio response covariates hasPhe lr
            fitLogit fitLogitBfgs fitReg cols = (.stats s, [])) ∨
        (∃ msg, fitBranch lr (buildFormula response covariates hasPhe)
            fitLogit fitLogitBfgs fitReg cols = .valueError msg ∧
          calculate_odds_ratio response covariates hasPhe lr
            fitLogit fitLogitBfgs fitReg cols =
              (.sentinel, [.excMessage msg, .lrMode lr])) ∨
        (∃ msg, fitBranch lr (buildFormula response covariates hasPhe)
            fitLogit fitLogitBfgs fitReg cols = .otherError msg ∧
          calculate_odds_ratio response covariates hasPhe lr
            fitLogit fitLogitBfgs fitReg cols = (.sentinel, [.excMessage msg]))) ∧
    (∀ (response covariates : PyStr) (hasPhe : Bool) (lr : ℕ)
        (fitLogit fitLogitBfgs : PyStr → FitOutcome)
        (fitReg : PyStr → List PyStr → ℚ → FitOutcome) (cols : PyStr → Bool) (msg : String),
        fitBranch lr (buildFormula response covariates hasPhe)
            fitLogit fitLogitBfgs fitReg cols = .valueError msg →
        (calculate_odds_ratio response covariates hasPhe lr
            fitLogit fitLogitBfgs fitReg cols).1 = .sentinel ∧
        Diag.lrMode lr ∈ (calculate_odds_ratio response covariates hasPhe lr
            fitLogit fitLogitBfgs fitReg cols).2) ∧
    (∀ (response covariates : PyStr) (hasPhe : Bool) (lr : ℕ)
        (fitLogit fitLogitBfgs : PyStr → FitOutcome)
        (fitReg : PyStr → List PyStr → ℚ → FitOutcome) (cols : PyStr → Bool) (msg : String),
        fitBranch lr (buildFormula response covariates hasPhe)
            fitLogit fitLogitBfgs fitReg cols = .otherError msg →
        (calculate_odds_ratio response covariates hasPhe lr
            fitLogit fitLogitBfgs fitReg cols).1 = .sentinel ∧
        (calculate_odds_ratio response covariates hasPhe lr
            fitLogit fitLogitBfgs fitReg cols).2 ≠ [] ∧
        Diag.lrMode lr ∉ (calculate_odds_ratio response covariates hasPhe lr
            fitLogit fitLogitBfgs fitReg cols).2) := by
  refine ⟨?_, ?_, ?_⟩
  · intro response covariates hasPhe lr fitLogit fitLogitBfgs fitReg cols
    unfold calculate_odds_ratio
    cases h : fitBranch lr (buildFormula response covariates hasPhe)
        fitLogit fitLogitBfgs fitReg cols with
    | ok s => exact Or.inl ⟨s, rfl, rfl⟩
    | valueError msg => exact Or.inr (Or.inl ⟨msg, rfl, rfl⟩)
    | otherError msg => exact Or.inr (Or.inr ⟨msg, rfl, rfl⟩)
  · intro response covariates hasPhe lr fitLogit fitLogitBfgs fitReg cols msg h
    unfold calculate_odds_ratio
    rw [h]
    exact ⟨rfl, by simp⟩
  · intro response covariates hasPhe lr fitLogit fitLogitBfgs fitReg cols msg h
    unfold calculate_odds_ratio
    rw [h]
    refine ⟨rfl, by simp, ?_⟩
    simp

/-- C8 witness: a `ValueError` from the ordinary fit gives the sentinel and a
diagnostic that does include the attempted mode. -/
theorem C8_witness_value_error_instance :
    (calculate_odds_ratio [] [] false 0 exFitValueErr exFitValueErr exFitRegFail exColsAll).1 =
      OddsResult.sentinel ∧
    Diag.lrMode 0 ∈
      (calculate_odds_ratio [] [] false 0 exFitValueErr exFitValueErr exFitRegFail exColsAll).2 := by
  exact C8_fit_exceptions_captured.2.1 [] [] false 0 exFitValueErr exFitValueErr exFitRegFail
    exColsAll "Perfect separation detected, results not available" (by decide)

/-- C9 counterexample: the response string `"y2 "` (with a trailing space) is
non-empty and does not contain `' ~ '`, yet the regularized path does not
return the sentinel: the built formula is `"y2 ~ y + genotype"`, so
`f.split(' ~ ')` yields two pieces, the indexing succeeds, and a succeeding
regularized fit's statistics are returned. -/
theorem C9_counterexample_trailing_space_response :
    noOcc " ~ ".toList "y2 ".toList ∧
    (pySplit " ~ ".toList (buildFormula "y2 ".toList [] false)).length = 2 ∧
    calculate_odds_ratio "y2 ".toList [] false 1
        exFitSingular exFitSingular exFitRegOk exColsAll = (OddsResult.stats exStats, []) ∧
    OddsResult.stats exStats ≠ OddsResult.sentinel := by
  refine ⟨by unfold noOcc; decide, by decide, by decide, by decide⟩

/-- C9 (amended): for every non-empty custom response that contains no
`' ~ '`, does not end in a space, and is paired with a covariate string
containing no `' ~ '`, the regularized fitting path (`lr=1`) of
`calculate_odds_ratio` always returns the NaN sentinel, whatever the data
columns and fit outcomes: the formula `response + '~ y + genotype' + ...`
contains no `' ~ '`, so `f.split(' ~ ')` yields a single element, `f1[1]`
raises `IndexError`, and the generic handler substitutes the sentinel with
the exception message as the only diagnostic.  (A response ending in a
space re-creates the `' ~ '` separator and lets the regularized fit
proceed, so the unamended claim fails there.) -/
theorem C9_regularized_custom_response_sentinel :
    ∀ (response covariates : PyStr) (hasPhe : Bool)
      (fitLogit fitLogitBfgs : PyStr → FitOutcome)
      (fitReg : PyStr → List PyStr → ℚ → FitOutcome) (cols : PyStr → Bool),
      response ≠ [] →
      noOcc " ~ ".toList response →
      response.getLast? ≠ some ' ' →
      noOcc " ~ ".toList covariates →
      calculate_odds_ratio response covariates hasPhe 1
          fitLogit fitLogitBfgs fitReg cols =
        (OddsResult.sentinel, [Diag.excMessage "IndexError: list index out of range"]) := by
  intro response covariates hasPhe fitLogit fitLogitBfgs fitReg cols hne hresp hlast hcov
  have hno := noOcc_formula hne hresp hlast hcov hasPhe
  unfold calculate_odds_ratio fitBranch
  rw [pySplit_eq_single hno]
  simp

/-- C9 witness: a well-formed custom response (`"brainage"`, no trailing
space, empty covariates) sent down the regularized path returns the sentinel
even though every fit oracle would succeed. -/
theorem C9_witness_custom_response_instance :
    calculate_odds_ratio "brainage".toList [] false 1
        exFitSingular exFitSingular exFitRegOk exColsAll =
      (OddsResult.sentinel, [Diag.excMessage "IndexError: list index out of range"]) := by
  exact C9_regularized_custom_response_sentinel "brainage".toList [] false
    exFitSingular exFitSingular exFitRegOk exColsAll
    (by decide) (by unfold noOcc; decide) (by decide) (by unfold noOcc; decide)

/-! ### Feature-matrix builder
(`get_icd_codes` lines 88-149 and `generate_feature_matrix` lines 192-287).
Subject ids and phenotype codes are natural numbers; ages are exact `ℚ`. -/

/-- One roster row (`group file`): a subject id and `MaxAgeAtVisit`. -/
structure Subject where
  id : ℕ
  maxAgeAtVisit : ℚ
deriving DecidableEq, Repr

/-- One post-merge event row before the group statistics are added:
subject `id`, mapped phenotype code (`PheCode`), and `AgeAtICD`. -/
structure RawEvent where
  id : ℕ
  code : ℕ
  age : ℚ
deriving DecidableEq, Repr

/-- One event row as `generate_feature_matrix` consumes it: with the
per-(id, code) group statistics `MaxAgeAtICD` and (duration mode) `duration`
added by `get_icd_codes`. -/
structure Event where
  id : ℕ
  code : ℕ
  maxAgeAt : ℚ
  duration : ℚ
deriving DecidableEq, Repr

/-- The ages of the (id, code) group of an event list. -/
def groupAges (evs : List RawEvent) (i c : ℕ) : List ℚ :=
  (evs.filter (fun x => x.id == i && x.code == c)).map (·.age)

/-- Model of the statistics part of `get_icd_codes` (lines 140-147): each
row receives its group's `transform('max')` of `AgeAtICD` as `MaxAgeAtICD`,
and in duration mode (`reg_type = 2`) the per-group
`transform('max') - transform('min') + 1` as `duration`.  (For the other
modes the code creates no `duration` column at all; the model stores 0
there, a value the matrix builder only reads in duration mode.) -/
def get_icd_codes (reg_type : ℕ) (evs : List RawEvent) : List Event :=
  evs.map fun e =>
    let g := groupAges evs e.id e.code
    { id := e.id, code := e.code,
      maxAgeAt := g.foldl max e.age,
      duration := if reg_type = 2 then g.foldl max e.age - g.foldl min e.age + 1 else 0 }

/-- The loop state of `generate_feature_matrix`: the three layers as total
functions (row, column) → value (all writes stay inside the allocated
3×N×P shape), the list `exclude` of already-reported missing ids (an id is
appended exactly when its warning is printed, so the printed reports are
this list), and the loop variables `last_id` (initially `''`, here `none`)
and `count` (initially `-1`). -/
structure BuildState where
  fm0 : ℕ → ℕ → ℚ
  fm1 : ℕ → ℕ → ℚ
  fm2 : ℕ → ℕ → ℚ
  exclude : List ℕ
  lastId : Option ℕ
  count : ℤ

/-- All-zero layers, no exclusions, `last_id = ''`, `count = -1`. -/
def initState : BuildState :=
  ⟨fun _ _ => 0, fun _ _ => 0, fun _ _ => 0, [], none, -1⟩

/-- Write one cell of a layer. -/
def upd2 (f : ℕ → ℕ → ℚ) (r c : ℕ) (v : ℚ) : ℕ → ℕ → ℚ :=
  fun i j => if i = r ∧ j = c then v else f i j

/-- Write one whole row of a layer with a constant
(`feature_matrix[1][count] = age` / `feature_matrix[2][count][:] = 1`). -/
def updRow (f : ℕ → ℕ → ℚ) (r : ℕ) (v : ℚ) : ℕ → ℕ → ℚ :=
  fun i j => if i = r then v else f i j

/-- `genotypes = genotypes_df.set_index('id').to_dict('index')`: dictionary
lookup by id (with duplicate ids the last row wins, as in pandas). -/
def gdict (roster : List Subject) (i : ℕ) : Option Subject :=
  (roster.filter (fun s => s.id == i)).getLast?

/-- The one error the modelled loop can raise: a failed `.loc` / dict /
`np_index` lookup (`KeyError`). -/
inductive BuildError
  | keyError
deriving DecidableEq, Repr

/-- The `while curr_id != genotypes_df.loc[count,'id']` loop (lines
262-265): starting at roster row `n`, fill the layer-1 row of each passed
subject (one without events) with its own `MaxAgeAtVisit` and advance, until
the row holding `currId` is reached; running past the roster end would make
`.loc` raise.  The recursion walks the explicit suffix `roster.drop n`. -/
def advanceAux (roster : List Subject) (currId : ℕ) :
    List Subject → ℕ → (ℕ → ℕ → ℚ) → Except BuildError (ℕ × (ℕ → ℕ → ℚ))
  | [], _, _ => .error .keyError
  | s :: rest, n, fm1 =>
    if s.id = currId then .ok (n, fm1)
    else
      match gdict roster s.id with
      | none => .error .keyError
      | some subj => advanceAux roster currId rest (n + 1) (updRow fm1 n subj.maxAgeAtVisit)

/-- The while loop entered at row `n` of the roster. -/
def advance (roster : List Subject) (currId : ℕ) (n : ℕ) (fm1 : ℕ → ℕ → ℚ) :
    Except BuildError (ℕ × (ℕ → ℕ → ℚ)) :=
  advanceAux roster currId (roster.drop n) n fm1

/-- The per-event writes of the loop body (lines 269-285): the event's
column is looked up (`phecode_ix = np_index[...]`, a `KeyError` if absent),
layer 1 gets the event's `MaxAgeAtICD` at the `(count, phecode_ix)` cell,
layer 2's whole `count` row is set to 1 when the event's code equals the
designated covariate code, and layer 0 is updated at the cell per mode: set
to 1 (binary, `reg_type = 0`), incremented (count, `reg_type = 1`), or
assigned the precomputed `duration` (otherwise). -/
def applyEvent (header : List ℕ) (regType : ℕ) (phenoCov : Option ℕ)
    (e : Event) (st1 : BuildState) : Except BuildError BuildState :=
  if e.code ∈ header then
    .ok { st1 with
      fm0 :=
        if regType = 0 then upd2 st1.fm0 st1.count.toNat (header.indexOf e.code) 1
        else if regType = 1 then
          upd2 st1.fm0 st1.count.toNat (header.indexOf e.code)
            (st1.fm0 st1.count.toNat (header.indexOf e.code) + 1)
        else upd2 st1.fm0 st1.count.toNat (header.indexOf e.code) e.duration,
      fm1 := upd2 st1.fm1 st1.count.toNat (header.indexOf e.code) e.maxAgeAt,
      fm2 := if phenoCov = some e.code then updRow st1.fm2 st1.count.toNat 1 else st1.fm2 }
  else .error .keyError

/-- One iteration of the event loop (lines 252-285).  An event with an id
missing from the group file is reported (appended to `exclude`) the first
time only and otherwise skipped (`continue`), nothing else changing.  A new
id triggers the while loop from row `count+1`, then the whole layer-1 row of
the found subject is set to its own `MaxAgeAtVisit` and `last_id`/`count`
are updated; finally the per-event writes `applyEvent` run. -/
def processEvent (roster : List Subject) (header : List ℕ) (regType : ℕ)
    (phenoCov : Option ℕ) (st : BuildState) (e : Event) :
    Except BuildError BuildState :=
  match gdict roster e.id with
  | none =>
    if e.id ∈ st.exclude then .ok st
    else .ok { st with exclude := st.exclude ++ [e.id] }
  | some subj =>
    if st.lastId ≠ some e.id then
      match advance roster e.id (st.count + 1).toNat st.fm1 with
      | .error err => .error err
      | .ok (pos, fm1') =>
        applyEvent header regType phenoCov e
          { st with fm1 := updRow fm1' pos subj.maxAgeAtVisit,
                    lastId := some e.id, count := (pos : ℤ) }
    else applyEvent header regType phenoCov e st

/-- Model of `generate_feature_matrix` (lines 192-287): sort the roster and
the events by id (pandas `sort_values`; ties between events of one id cannot
affect the matrix, every in-group write being idempotent or commutative),
build the header as the sorted deduplicated code table
(`empty_phewas_df.sort_index()` of the already-deduplicated module table,
with `np_index` mapping a code to its position), and fold the event loop
over the sorted events from the initial state.  Returns the final state and
the phenotype header. -/
def generate_feature_matrix (roster : List Subject) (events : List Event)
    (regType : ℕ) (codeTable : List ℕ) (phenoCov : Option ℕ) :
    Except BuildError (BuildState × List ℕ) :=
  match (events.insertionSort (fun a b => a.id ≤ b.id)).foldlM
      (processEvent (roster.insertionSort (fun a b => a.id ≤ b.id))
        (codeTable.dedup.insertionSort (· ≤ ·)) regType phenoCov)
      initState with
  | .error e => .error e
  | .ok st => .ok (st, codeTable.dedup.insertionSort (· ≤ ·))

/-- Layer-1 readout of a build result. -/
def fm1At (res : Except BuildError (BuildState × List ℕ)) (r j : ℕ) : Option ℚ :=
  match res with
  | .ok (st, _) => some (st.fm1 r j)
  | .error _ => none

/-- Layer-0 readout of a build result. -/
def fm0At (res : Except BuildError (BuildState × List ℕ)) (r j : ℕ) : Option ℚ :=
  match res with
  | .ok (st, _) => some (st.fm0 r j)
  | .error _ => none

/-- Layer-2 readout of a build result. -/
def fm2At (res : Except BuildError (BuildState × List ℕ)) (r j : ℕ) : Option ℚ :=
  match res with
  | .ok (st, _) => some (st.fm2 r j)
  | .error _ => none

/-- C2 (code bug): roster ids 1..4 with `MaxAgeAtVisit` 40/50/60/70, events
only for ids 1 and 3.  Subject 2 (row 1), which has zero events and sits
between event-bearing ids, is handled as documented: its layer-1 row is
filled with its own `MaxAgeAtVisit` 50 and layers 0/2 stay 0.  Subject 4
(row 3), whose id sorts after the last event-bearing id, is never reached by
the loop: its layer-1 row stays 0 instead of its `MaxAgeAtVisit` 70 — the
code contradicts its own docstring ("For phenotypes absent in the subject's
record, the subject's overall maximum age is recorded") and the claim. -/
theorem C2_trailing_subject_layer1_not_filled :
    fm1At (generate_feature_matrix
      ([⟨1, 40⟩, ⟨2, 50⟩, ⟨3, 60⟩, ⟨4, 70⟩] : List Subject)
      (get_icd_codes 0 ([⟨1, 100, 30⟩, ⟨3, 100, 35⟩] : List RawEvent))
      0 [100] none) 1 0 = some 50 ∧
    fm0At (generate_feature_matrix
      ([⟨1, 40⟩, ⟨2, 50⟩, ⟨3, 60⟩, ⟨4, 70⟩] : List Subject)
      (get_icd_codes 0 ([⟨1, 100, 30⟩, ⟨3, 100, 35⟩] : List RawEvent))
      0 [100] none) 1 0 = some 0 ∧
    fm2At (generate_feature_matrix
      ([⟨1, 40⟩, ⟨2, 50⟩, ⟨3, 60⟩, ⟨4, 70⟩] : List Subject)
      (get_icd_codes 0 ([⟨1, 100, 30⟩, ⟨3, 100, 35⟩] : List RawEvent))
      0 [100] none) 1 0 = some 0 ∧
    fm1At (generate_feature_matrix
      ([⟨1, 40⟩, ⟨2, 50⟩, ⟨3, 60⟩, ⟨4, 70⟩] : List Subject)
      (get_icd_codes 0 ([⟨1, 100, 30⟩, ⟨3, 100, 35⟩] : List RawEvent))
      0 [100] none) 3 0 = some 0 ∧
    (some (0 : ℚ) ≠ some (70 : ℚ)) := by
  refine ⟨by decide, by decide, by decide, by decide, by decide⟩

/-- Two loop states that agree on everything the matrix output reads — the
three layers and both loop variables — and may differ only in the report
list `exclude`. -/
def CoreEq (a b : BuildState) : Prop :=
  a.fm0 = b.fm0 ∧ a.fm1 = b.fm1 ∧ a.fm2 = b.fm2 ∧ a.lastId = b.lastId ∧ a.count = b.count

theorem coreEq_refl {a : BuildState} : CoreEq a a := ⟨Eq.refl _, Eq.refl _, Eq.refl _, Eq.refl _, Eq.refl _⟩

theorem coreEq_trans {a b c : BuildState} (h1 : CoreEq a b) (h2 : CoreEq b c) :
    CoreEq a c := by
  obtain ⟨e1, e2, e3, e4, e5⟩ := h1
  obtain ⟨f1, f2, f3, f4, f5⟩ := h2
  exact ⟨e1.trans f1, e2.trans f2, e3.trans f3, e4.trans f4, e5.trans f5⟩

/-- Two run results that agree up to the report list: both fail with the
same error, or both succeed with `CoreEq` states. -/
def ResultCoreEq : Except BuildError BuildState → Except BuildError BuildState → Prop
  | .error a, .error b => a = b
  | .ok a, .ok b => CoreEq a b
  | _, _ => False

theorem processEvent_missing {roster : List Subject} {header : List ℕ} {regType : ℕ}
    {phenoCov : Option ℕ} {st : BuildState} {e : Event}
    (h : gdict roster e.id = none) :
    ∃ st', processEvent roster header regType phenoCov st e = .ok st' ∧ CoreEq st' st ∧
      ((st'.exclude = st.exclude ∧ e.id ∈ st.exclude) ∨
       (st'.exclude = st.exclude ++ [e.id] ∧ e.id ∉ st.exclude)) := by
  unfold processEvent
  simp only [h]
  by_cases hm : e.id ∈ st.exclude
  · exact ⟨st, by rw [if_pos hm], coreEq_refl, Or.inl ⟨rfl, hm⟩⟩
  · exact ⟨{ st with exclude := st.exclude ++ [e.id] }, by rw [if_neg hm],
      ⟨rfl, rfl, rfl, rfl, rfl⟩, Or.inr ⟨rfl, hm⟩⟩

theorem applyEvent_ok_exclude {header : List ℕ} {regType : ℕ} {phenoCov : Option ℕ}
    {e : Event} {st1 st2 : BuildState}
    (h : applyEvent header regType phenoCov e st1 = .ok st2) :
    st2.exclude = st1.exclude ∧ st2.lastId = st1.lastId ∧ st2.count = st1.count := by
  unfold applyEvent at h
  by_cases hc : e.code ∈ header
  · rw [if_pos hc] at h
    cases h
    exact ⟨rfl, rfl, rfl⟩
  · rw [if_neg hc] at h
    cases h

theorem processEvent_valid_exclude {roster : List Subject} {header : List ℕ}
    {regType : ℕ} {phenoCov : Option ℕ} {st : BuildState} {e : Event} {subj : Subject}
    (h : gdict roster e.id = some subj) {st' : BuildState}
    (hp : processEvent roster header regType phenoCov st e = .ok st') :
    st'.exclude = st.exclude := by
  unfold processEvent at hp
  simp only [h] at hp
  split at hp
  · split at hp
    · cases hp
    · exact (applyEvent_ok_exclude hp).1
  · exact (applyEvent_ok_exclude hp).1

theorem applyEvent_congr {header : List ℕ} {regType : ℕ} {phenoCov : Option ℕ}
    {e : Event} {f0 f1 f2 : ℕ → ℕ → ℚ} {ex ex' : List ℕ} {li : Option ℕ} {ct : ℤ} :
    ResultCoreEq (applyEvent header regType phenoCov e ⟨f0, f1, f2, ex, li, ct⟩)
      (applyEvent header regType phenoCov e ⟨f0, f1, f2, ex', li, ct⟩) := by
  unfold applyEvent
  by_cases hc : e.code ∈ header
  · rw [if_pos hc, if_pos hc]
    exact ⟨rfl, rfl, rfl, rfl, rfl⟩
  · rw [if_neg hc, if_neg hc]
    rfl

theorem processEvent_valid_congr {roster : List Subject} {header : List ℕ}
    {regType : ℕ} {phenoCov : Option ℕ} {e : Event} {subj : Subject}
    (h : gdict roster e.id = some subj) :
    ∀ {st st' : BuildState}, CoreEq st st' →
      ResultCoreEq (processEvent roster header regType phenoCov st e)
        (processEvent roster header regType phenoCov st' e) := by
  rintro ⟨f0, f1, f2, ex, li, ct⟩ ⟨g0, g1, g2, ex', li', ct'⟩ ⟨e0, e1, e2, e3, e4⟩
  simp only at e0 e1 e2 e3 e4
  subst e0
  subst e1
  subst e2
  subst e3
  subst e4
  unfold processEvent
  simp only [h]
  by_cases hl : li ≠ some e.id
  · simp only [if_pos hl]
    cases hadv : advance roster e.id (ct + 1).toNat f1 with
    | error err =>
      simp only [hadv]
      rfl
    | ok pr =>
      obtain ⟨pos, fm1'⟩ := pr
      simp only [hadv]
      exact applyEvent_congr
  · simp only [if_neg hl]
    exact applyEvent_congr

theorem foldlM_filter_missing (roster : List Subject) (header : List ℕ)
    (regType : ℕ) (phenoCov : Option ℕ) :
    ∀ (evs : List Event) {st st' : BuildState}, CoreEq st st' →
      ResultCoreEq (evs.foldlM (processEvent roster header regType phenoCov) st)
        ((evs.filter (fun e => (gdict roster e.id).isSome)).foldlM
          (processEvent roster header regType phenoCov) st')
  | [], st, st', hcore => by
    simp only [List.filter_nil, List.foldlM_nil]
    exact hcore
  | e :: evs, st, st', hcore => by
    rw [List.foldlM_cons]
    cases hg : gdict roster e.id with
    | none =>
      rw [List.filter_cons_of_neg (by simp [hg])]
      obtain ⟨st1, hstep, hcore1, -⟩ :=
        @processEvent_missing roster header regType phenoCov st e hg
      rw [hstep]
      show ResultCoreEq (evs.foldlM (processEvent roster header regType phenoCov) st1) _
      exact foldlM_filter_missing roster header regType phenoCov evs
        (coreEq_trans hcore1 hcore)
    | some subj =>
      rw [List.filter_cons_of_pos (by simp [hg]), List.foldlM_cons]
      have hre :=
        @processEvent_valid_congr roster header regType phenoCov e subj hg st st' hcore
      cases hp : processEvent roster header regType phenoCov st e with
      | error err =>
        cases hp' : processEvent roster header regType phenoCov st' e with
        | error err' =>
          rw [hp, hp'] at hre
          exact hre
        | ok b =>
          rw [hp, hp'] at hre
          simp only [ResultCoreEq] at hre
      | ok a =>
        cases hp' : processEvent roster header regType phenoCov st' e with
        | error err' =>
          rw [hp, hp'] at hre
          simp only [ResultCoreEq] at hre
        | ok b =>
          rw [hp, hp'] at hre
          show ResultCoreEq (evs.foldlM (processEvent roster header regType phenoCov) a) _
          exact foldlM_filter_missing roster header regType phenoCov evs hre

theorem fold_exclude (roster : List Subject) (header : List ℕ) (regType : ℕ)
    (phenoCov : Option ℕ) :
    ∀ (evs : List Event) (st st' : BuildState),
      evs.foldlM (processEvent roster header regType phenoCov) st = .ok st' →
      (st.exclude.Nodup → st'.exclude.Nodup) ∧
      (∀ i, i ∈ st'.exclude ↔
        i ∈ st.exclude ∨ ((∃ e ∈ evs, e.id = i) ∧ gdict roster i = none))
  | [], st, st', hf => by
    simp only [List.foldlM_nil] at hf
    cases hf
    exact ⟨id, fun i => by simp⟩
  | e :: evs, st, st', hf => by
    rw [List.foldlM_cons] at hf
    cases hp : processEvent roster header regType phenoCov st e with
    | error err =>
      rw [hp] at hf
      exact Except.noConfusion hf
    | ok st1 =>
      rw [hp] at hf
      have hf' : evs.foldlM (processEvent roster header regType phenoCov) st1 = .ok st' := hf
      obtain ⟨hnd, hmem⟩ := fold_exclude roster header regType phenoCov evs st1 st' hf'
      cases hg : gdict roster e.id with
      | none =>
        obtain ⟨st1', hstep, -, hchar⟩ :=
          @processEvent_missing roster header regType phenoCov st e hg
        rw [hstep] at hp
        cases hp
        constructor
        · intro hnodup
          apply hnd
          rcases hchar with ⟨hex, -⟩ | ⟨hex, hnotmem⟩
          · rw [hex]
            exact hnodup
          · rw [hex]
            simp [List.nodup_append, hnodup, hnotmem]
        · intro i
          rw [hmem i]
          rcases hchar with ⟨hex, hin⟩ | ⟨hex, hnotmem⟩
          · rw [hex]
            constructor
            · rintro (h1 | ⟨⟨e', he', rfl⟩, hnone⟩)
              · exact Or.inl h1
              · exact Or.inr ⟨⟨e', List.mem_cons_of_mem _ he', rfl⟩, hnone⟩
            · rintro (h1 | ⟨⟨e', he', rfl⟩, hnone⟩)
              · exact Or.inl h1
              · rcases List.mem_cons.mp he' with rfl | he''
                · exact Or.inl hin
                · exact Or.inr ⟨⟨e', he'', rfl⟩, hnone⟩
          · rw [hex]
            constructor
            · rintro (h1 | ⟨⟨e', he', rfl⟩, hnone⟩)
              · rcases List.mem_append.mp h1 with h2 | h2
                · exact Or.inl h2
                · have : i = e.id := by simpa using h2
                  subst this
                  exact Or.inr ⟨⟨e, List.mem_cons_self _ _, rfl⟩, hg⟩
              · exact Or.inr ⟨⟨e', List.mem_cons_of_mem _ he', rfl⟩, hnone⟩
            · rintro (h1 | ⟨⟨e', he', rfl⟩, hnone⟩)
              · exact Or.inl (List.mem_append.mpr (Or.inl h1))
              · rcases List.mem_cons.mp he' with rfl | he''
                · exact Or.inl (List.mem_append.mpr (Or.inr (by simp)))
                · exact Or.inr ⟨⟨e', he'', rfl⟩, hnone⟩
      | some subj =>
        have hex : st1.exclude = st.exclude := processEvent_valid_exclude hg hp
        constructor
        · intro hnodup
          exact hnd (by rw [hex]; exact hnodup)
        · intro i
          rw [hmem i, hex]
          constructor
          · rintro (h1 | ⟨⟨e', he', rfl⟩, hnone⟩)
            · exact Or.inl h1
            · exact Or.inr ⟨⟨e', List.mem_cons_of_mem _ he', rfl⟩, hnone⟩
          · rintro (h1 | ⟨⟨e', he', rfl⟩, hnone⟩)
            · exact Or.inl h1
            · rcases List.mem_cons.mp he' with rfl | he''
              · rw [hg] at hnone
                exact Option.noConfusion hnone
              · exact Or.inr ⟨⟨e', he'', rfl⟩, hnone⟩

theorem gdict_eq_none {R : List Subject} {i : ℕ} :
    gdict R i = none ↔ ∀ s ∈ R, s.id ≠ i := by
  unfold gdict
  rw [List.getLast?_eq_none_iff, List.filter_eq_nil_iff]
  simp

theorem generate_feature_matrix_eq (roster : List Subject) (events : List Event)
    (regType : ℕ) (codeTable : List ℕ) (phenoCov : Option ℕ) :
    (generate_feature_matrix roster events regType codeTable phenoCov).map Prod.fst =
      (events.insertionSort (fun a b => a.id ≤ b.id)).foldlM
        (processEvent (roster.insertionSort (fun a b => a.id ≤ b.id))
          (codeTable.dedup.insertionSort (· ≤ ·)) regType phenoCov) initState := by
  unfold generate_feature_matrix
  cases h : (events.insertionSort (fun a b => a.id ≤ b.id)).foldlM
      (processEvent (roster.insertionSort (fun a b => a.id ≤ b.id))
        (codeTable.dedup.insertionSort (· ≤ ·)) regType phenoCov) initState with
  | error e => simp [h, Except.map]
  | ok st => simp [h, Except.map]

/-- C7: every event whose id is absent from the roster is excluded from all
three layers of the feature matrix — dropping those events before the loop
yields the same layers, the same loop variables and the same success/error
status (so such events alone never abort the build) — and each such missing
id is reported (appended to the `exclude` list, which is exactly the list of
printed warnings) at most once no matter how many of its events appear. -/
theorem C7_missing_ids_excluded :
    (∀ (roster : List Subject) (events : List Event) (regType : ℕ)
        (codeTable : List ℕ) (phenoCov : Option ℕ),
        ResultCoreEq
          ((generate_feature_matrix roster events regType codeTable phenoCov).map Prod.fst)
          (((events.insertionSort (fun a b => a.id ≤ b.id)).filter
              (fun e => (gdict (roster.insertionSort (fun a b => a.id ≤ b.id)) e.id).isSome)).foldlM
            (processEvent (roster.insertionSort (fun a b => a.id ≤ b.id))
              (codeTable.dedup.insertionSort (· ≤ ·)) regType phenoCov) initState)) ∧
    (∀ (roster : List Subject) (events : List Event) (regType : ℕ)
        (codeTable : List ℕ) (phenoCov : Option ℕ) (st : BuildState) (hdr : List ℕ),
        generate_feature_matrix roster events regType codeTable phenoCov = .ok (st, hdr) →
        st.exclude.Nodup ∧
        (∀ i, i ∈ st.exclude ↔
          ((∃ e ∈ events, e.id = i) ∧ ∀ s ∈ roster, s.id ≠ i))) := by
  constructor
  · intro roster events regType codeTable phenoCov
    rw [generate_feature_matrix_eq]
    exact foldlM_filter_missing _ _ _ _ _ coreEq_refl
  · intro roster events regType codeTable phenoCov st hdr hok
    have hfold : (events.insertionSort (fun a b => a.id ≤ b.id)).foldlM
        (processEvent (roster.insertionSort (fun a b => a.id ≤ b.id))
          (codeTable.dedup.insertionSort (· ≤ ·)) regType phenoCov) initState = .ok st := by
      have := generate_feature_matrix_eq roster events regType codeTable phenoCov
      rw [hok] at this
      exact this.symm
    obtain ⟨hnd, hmem⟩ := fold_exclude _ _ _ _ _ _ _ hfold
    refine ⟨hnd (by simp [initState]), ?_⟩
    intro i
    rw [hmem i]
    have hperm := (List.perm_insertionSort (fun a b : Event => a.id ≤ b.id) events).mem_iff
      (a := (⟨0, 0, 0, 0⟩ : Event))
    constructor
    · rintro (h1 | ⟨⟨e, he, rfl⟩, hnone⟩)
      · simp [initState] at h1
      · refine ⟨⟨e, ?_, rfl⟩, ?_⟩
        · exact (List.perm_insertionSort (fun a b : Event => a.id ≤ b.id) events).mem_iff.mp he
        · intro s hs
          exact gdict_eq_none.mp hnone s
            ((List.perm_insertionSort (fun a b : Subject => a.id ≤ b.id) roster).mem_iff.mpr hs)
    · rintro ⟨⟨e, he, rfl⟩, hnotin⟩
      refine Or.inr ⟨⟨e, ?_, rfl⟩, ?_⟩
      · exact (List.perm_insertionSort (fun a b : Event => a.id ≤ b.id) events).mem_iff.mpr he
      · exact gdict_eq_none.mpr fun s hs =>
          hnotin s ((List.perm_insertionSort (fun a b : Subject => a.id ≤ b.id) roster).mem_iff.mp hs)

/-! #### Correctness of the event loop for subjects that do have events
(the machinery behind C5). -/

theorem upd2_self (f : ℕ → ℕ → ℚ) (r c : ℕ) (v : ℚ) : upd2 f r c v r c = v := by
  simp [upd2]

theorem upd2_ne (f : ℕ → ℕ → ℚ) (r c : ℕ) (v : ℚ) {r' c' : ℕ}
    (h : r' ≠ r ∨ c' ≠ c) : upd2 f r c v r' c' = f r' c' := by
  unfold upd2
  have hne : ¬ (r' = r ∧ c' = c) := by
    rintro ⟨rfl, rfl⟩
    rcases h with h | h <;> exact h rfl
  rw [if_neg hne]

theorem updRow_self (f : ℕ → ℕ → ℚ) (r : ℕ) (v : ℚ) (j : ℕ) : updRow f r v r j = v := by
  simp [updRow]

theorem updRow_ne (f : ℕ → ℕ → ℚ) (r : ℕ) (v : ℚ) {r' : ℕ} (j : ℕ)
    (h : r' ≠ r) : updRow f r v r' j = f r' j := by
  simp [updRow, h]

instance : IsTotal Subject (fun a b : Subject => a.id ≤ b.id) :=
  ⟨fun a b => Nat.le_total a.id b.id⟩

instance : IsTrans Subject (fun a b : Subject => a.id ≤ b.id) :=
  ⟨fun _ _ _ h1 h2 => Nat.le_trans h1 h2⟩

instance : IsTotal Event (fun a b : Event => a.id ≤ b.id) :=
  ⟨fun a b => Nat.le_total a.id b.id⟩

instance : IsTrans Event (fun a b : Event => a.id ≤ b.id) :=
  ⟨fun _ _ _ h1 h2 => Nat.le_trans h1 h2⟩

/-- The ids of the sorted roster are strictly increasing when the input
roster's ids are distinct (uniqueness of `id` is the data-model invariant). -/
theorem sorted_roster_strict {roster : List Subject}
    (hnd : (roster.map Subject.id).Nodup) :
    ((roster.insertionSort (fun a b : Subject => a.id ≤ b.id)).map Subject.id).Sorted
      (· < ·) := by
  have hs : ((roster.insertionSort (fun a b : Subject => a.id ≤ b.id)).map Subject.id).Sorted
      (· ≤ ·) := by
    have := List.sorted_insertionSort (fun a b : Subject => a.id ≤ b.id) roster
    exact List.Pairwise.map _ (fun a b h => h) this
  have hnd' : ((roster.insertionSort (fun a b : Subject => a.id ≤ b.id)).map Subject.id).Nodup := by
    have hperm := (List.perm_insertionSort (fun a b : Subject => a.id ≤ b.id) roster).map
      Subject.id
    exact (hperm.nodup_iff).mpr hnd
  exact List.Pairwise.imp₂ (fun a b h1 h2 => lt_of_le_of_ne h1 h2) hs hnd'

theorem strict_pos_mono {R : List Subject}
    (hs : (R.map Subject.id).Sorted (· < ·)) {q p : ℕ}
    (hq : q < R.length) (hp : p < R.length)
    (h : (R.get ⟨q, hq⟩).id < (R.get ⟨p, hp⟩).id) : q < p := by
  by_contra hc
  push_neg at hc
  rcases Nat.lt_or_ge p q with hlt | hge
  · have := List.pairwise_iff_get.mp hs ⟨p, by simpa using hp⟩ ⟨q, by simpa using hq⟩ hlt
    simp only [List.get_map] at this
    omega
  · have : p = q := by omega
    subst this
    omega

theorem strict_id_lt {R : List Subject}
    (hs : (R.map Subject.id).Sorted (· < ·)) {q p : ℕ}
    (hq : q < R.length) (hp : p < R.length) (h : q < p) :
    (R.get ⟨q, hq⟩).id < (R.get ⟨p, hp⟩).id := by
  have := List.pairwise_iff_get.mp hs ⟨q, by simpa using hq⟩ ⟨p, by simpa using hp⟩ h
  simpa using this

theorem gdict_of_mem {R : List Subject} {s : Subject} (h : s ∈ R) :
    ∃ subj, gdict R s.id = some subj := by
  unfold gdict
  have hne : R.filter (fun x => x.id == s.id) ≠ [] := by
    intro hnil
    have := List.filter_eq_nil_iff.mp hnil s h
    simp at this
  rcases List.exists_mem_of_ne_nil _ hne with ⟨x, -⟩
  cases hlast : (R.filter (fun x => x.id == s.id)).getLast? with
  | none => exact absurd (List.getLast?_eq_none_iff.mp hlast) hne
  | some subj => exact ⟨subj, rfl⟩

/-- Specification of the while loop: when `currId` sits at roster row `p`,
no row in `[n, p)` holds it, and the walk starts at `n ≤ p`, the loop stops
at `p`, only layer-1 rows in `[n, p)` being written. -/
theorem advance_spec (R : List Subject) (currId : ℕ) (n : ℕ) (fm1 : ℕ → ℕ → ℚ)
    (p : ℕ) (hp : p < R.length) (hnp : n ≤ p)
    (hid : (R.get ⟨p, hp⟩).id = currId)
    (hno : ∀ q (hq : q < R.length), n ≤ q → q < p → (R.get ⟨q, hq⟩).id ≠ currId) :
    ∃ fm1', advance R currId n fm1 = .ok (p, fm1') ∧
      ∀ r j, (r < n ∨ p ≤ r) → fm1' r j = fm1 r j := by
  have hn : n < R.length := lt_of_le_of_lt hnp hp
  unfold advance
  rw [List.drop_eq_getElem_cons hn, advanceAux]
  by_cases heq : R[n].id = currId
  · have hnp' : n = p := by
      by_contra hne
      have hlt : n < p := lt_of_le_of_ne hnp hne
      exact hno n hn (le_refl n) hlt (by simpa [List.get_eq_getElem] using heq) 
    subst hnp'
    rw [if_pos heq]
    exact ⟨fm1, rfl, fun r j _ => rfl⟩
  · rw [if_neg heq]
    have hlt : n < p := by
      rcases lt_or_eq_of_le hnp with h | h
      · exact h
      · subst h
        exact absurd (by simpa [List.get_eq_getElem] using hid) heq
    obtain ⟨subj, hsubj⟩ := gdict_of_mem (R := R) (s := R[n]) (List.getElem_mem hn)
    rw [hsubj]
    obtain ⟨fm1', hrec, hfix⟩ := advance_spec R currId (n + 1)
      (updRow fm1 n subj.maxAgeAtVisit) p hp hlt hid
      (fun q hq h1 h2 => hno q hq (Nat.le_of_succ_le h1) h2)
    refine ⟨fm1', hrec, ?_⟩
    intro r j hr
    rw [hfix r j (by omega)]
    exact updRow_ne fm1 n subj.maxAgeAtVisit j (by omega)
termination_by p - n
decreasing_by omega

/-- One event of the subject already being processed (`last_id == curr_id`):
the writes hit only row `p = count`, layer 1 gets `MaxAgeAtICD` at the
event's column, and in duration mode layer 0 gets the precomputed duration
(an assignment, not an accumulation). -/
theorem processEvent_sameId {roster : List Subject} {header : List ℕ}
    {regType : ℕ} {phenoCov : Option ℕ} {e : Event} {subj : Subject}
    {st : BuildState} {p : ℕ}
    (hg : gdict roster e.id = some subj) (hl : st.lastId = some e.id)
    (hcount : st.count = (p : ℤ)) (hc : e.code ∈ header) :
    ∃ st₂, processEvent roster header regType phenoCov st e = .ok st₂ ∧
      st₂.lastId = st.lastId ∧ st₂.count = st.count ∧ st₂.exclude = st.exclude ∧
      (∀ r j, r ≠ p →
        st₂.fm0 r j = st.fm0 r j ∧ st₂.fm1 r j = st.fm1 r j ∧ st₂.fm2 r j = st.fm2 r j) ∧
      (∀ j, j ≠ header.indexOf e.code →
        st₂.fm1 p j = st.fm1 p j ∧ st₂.fm0 p j = st.fm0 p j) ∧
      st₂.fm1 p (header.indexOf e.code) = e.maxAgeAt ∧
      (regType = 2 → st₂.fm0 p (header.indexOf e.code) = e.duration) := by
  have hptoNat : st.count.toNat = p := by rw [hcount]; exact Int.toNat_natCast p
  unfold processEvent
  simp only [hg]
  rw [if_neg (by rw [hl]; exact fun hcon => hcon rfl)]
  unfold applyEvent
  rw [if_pos hc]
  refine ⟨_, rfl, rfl, rfl, rfl, ?_, ?_, ?_, ?_⟩
  · intro r j hr
    rw [hptoNat]
    refine ⟨?_, upd2_ne _ _ _ _ (Or.inl hr), ?_⟩
    · by_cases h0 : regType = 0
      · rw [if_pos h0]
        exact upd2_ne _ _ _ _ (Or.inl hr)
      · by_cases h1 : regType = 1
        · rw [if_neg h0, if_pos h1]
          exact upd2_ne _ _ _ _ (Or.inl hr)
        · rw [if_neg h0, if_neg h1]
          exact upd2_ne _ _ _ _ (Or.inl hr)
    · by_cases hcov : phenoCov = some e.code
      · rw [if_pos hcov]
        exact updRow_ne _ _ _ _ hr
      · rw [if_neg hcov]
  · intro j hj
    rw [hptoNat]
    refine ⟨upd2_ne _ _ _ _ (Or.inr hj), ?_⟩
    by_cases h0 : regType = 0
    · rw [if_pos h0]
      exact upd2_ne _ _ _ _ (Or.inr hj)
    · by_cases h1 : regType = 1
      · rw [if_neg h0, if_pos h1]
        exact upd2_ne _ _ _ _ (Or.inr hj)
      · rw [if_neg h0, if_neg h1]
        exact upd2_ne _ _ _ _ (Or.inr hj)
  · rw [hptoNat]
    exact upd2_self _ _ _ _
  · intro h2
    rw [hptoNat, if_neg (by omega), if_neg (by omega)]
    exact upd2_self _ _ _ _

/-- The first event of a new subject id found at roster row `p` (`count`
still below `p`): the while loop fills rows up to `p`, the subject's whole
layer-1 row is set to its `MaxAgeAtVisit`, `last_id`/`count` move to the new
subject, and the event's writes land in row `p`; rows at or below the old
`count` are untouched in all three layers. -/
theorem processEvent_newId {roster : List Subject} {header : List ℕ}
    {regType : ℕ} {phenoCov : Option ℕ} {e : Event} {subj : Subject}
    {st : BuildState} {p : ℕ} (hp : p < roster.length)
    (hg : gdict roster e.id = some subj) (hl : st.lastId ≠ some e.id)
    (hpid : (roster.get ⟨p, hp⟩).id = e.id)
    (hn : (st.count + 1).toNat ≤ p)
    (hno : ∀ q (hq : q < roster.length), (st.count + 1).toNat ≤ q → q < p →
      (roster.get ⟨q, hq⟩).id ≠ e.id)
    (hc : e.code ∈ header) :
    ∃ st₂, processEvent roster header regType phenoCov st e = .ok st₂ ∧
      st₂.lastId = some e.id ∧ st₂.count = (p : ℤ) ∧ st₂.exclude = st.exclude ∧
      (∀ (r j : ℕ), (r : ℤ) ≤ st.count →
        st₂.fm0 r j = st.fm0 r j ∧ st₂.fm1 r j = st.fm1 r j ∧ st₂.fm2 r j = st.fm2 r j) ∧
      (∀ (r j : ℕ), p < r →
        st₂.fm0 r j = st.fm0 r j ∧ st₂.fm1 r j = st.fm1 r j ∧ st₂.fm2 r j = st.fm2 r j) ∧
      (∀ j, j ≠ header.indexOf e.code →
        st₂.fm1 p j = subj.maxAgeAtVisit ∧ st₂.fm0 p j = st.fm0 p j) ∧
      st₂.fm1 p (header.indexOf e.code) = e.maxAgeAt ∧
      (regType = 2 → st₂.fm0 p (header.indexOf e.code) = e.duration) := by
  obtain ⟨fm1', hadv, hfix⟩ := advance_spec roster e.id (st.count + 1).toNat st.fm1 p hp hn
    hpid hno
  unfold processEvent
  simp only [hg]
  rw [if_pos hl]
  simp only [hadv]
  unfold applyEvent
  rw [if_pos hc]
  refine ⟨_, rfl, rfl, rfl, rfl, ?_, ?_, ?_, ?_, ?_⟩ <;> dsimp only [Int.toNat_natCast]
  · intro r j hr
    have hrn : r < (st.count + 1).toNat := by omega
    have hrp : r ≠ p := by omega
    refine ⟨?_, ?_, ?_⟩
    · by_cases h0 : regType = 0
      · rw [if_pos h0]
        exact upd2_ne _ _ _ _ (Or.inl hrp)
      · by_cases h1 : regType = 1
        · rw [if_neg h0, if_pos h1]
          exact upd2_ne _ _ _ _ (Or.inl hrp)
        · rw [if_neg h0, if_neg h1]
          exact upd2_ne _ _ _ _ (Or.inl hrp)
    · rw [upd2_ne _ _ _ _ (Or.inl hrp), updRow_ne _ _ _ _ hrp]
      exact hfix r j (Or.inl hrn)
    · by_cases hcov : phenoCov = some e.code
      · rw [if_pos hcov]
        exact updRow_ne _ _ _ _ hrp
      · rw [if_neg hcov]
  · intro r j hr
    have hrp : r ≠ p := by omega
    refine ⟨?_, ?_, ?_⟩
    · by_cases h0 : regType = 0
      · rw [if_pos h0]
        exact upd2_ne _ _ _ _ (Or.inl hrp)
      · by_cases h1 : regType = 1
        · rw [if_neg h0, if_pos h1]
          exact upd2_ne _ _ _ _ (Or.inl hrp)
        · rw [if_neg h0, if_neg h1]
          exact upd2_ne _ _ _ _ (Or.inl hrp)
    · rw [upd2_ne _ _ _ _ (Or.inl hrp), updRow_ne _ _ _ _ hrp]
      exact hfix r j (Or.inr (le_of_lt hr))
    · by_cases hcov : phenoCov = some e.code
      · rw [if_pos hcov]
        exact updRow_ne _ _ _ _ hrp
      · rw [if_neg hcov]
  · intro j hj
    refine ⟨?_, ?_⟩
    · rw [upd2_ne _ _ _ _ (Or.inr hj), updRow_self]
    · by_cases h0 : regType = 0
      · rw [if_pos h0]
        exact upd2_ne _ _ _ _ (Or.inr hj)
      · by_cases h1 : regType = 1
        · rw [if_neg h0, if_pos h1]
          exact upd2_ne _ _ _ _ (Or.inr hj)
        · rw [if_neg h0, if_neg h1]
          exact upd2_ne _ _ _ _ (Or.inr hj)
  · exact upd2_self _ _ _ _
  · intro h2
    rw [if_neg (by omega), if_neg (by omega)]
    exact upd2_self _ _ _ _

/-- Folding the further events of one subject (all with the current id):
writes stay in row `p`; afterwards, every event of the list has its
`MaxAgeAtICD` in layer 1 at its column and (duration mode) its `duration` in
layer 0 — well defined because the events of one (id, code) group agree on
both, as `get_icd_codes` guarantees. -/
theorem foldBlock_sameId {roster : List Subject} {header : List ℕ}
    {regType : ℕ} {phenoCov : Option ℕ} {i : ℕ} {subj : Subject} {p : ℕ}
    (hg : gdict roster i = some subj) :
    ∀ (L : List Event) (st : BuildState),
      (∀ e ∈ L, e.id = i) → (∀ e ∈ L, e.code ∈ header) →
      (∀ e ∈ L, ∀ e' ∈ L, e.code = e'.code →
        e.maxAgeAt = e'.maxAgeAt ∧ e.duration = e'.duration) →
      st.lastId = some i → st.count = (p : ℤ) →
      ∃ st₂, L.foldlM (processEvent roster header regType phenoCov) st = .ok st₂ ∧
        st₂.lastId = some i ∧ st₂.count = (p : ℤ) ∧
        (∀ (r j : ℕ), r ≠ p →
          st₂.fm0 r j = st.fm0 r j ∧ st₂.fm1 r j = st.fm1 r j ∧ st₂.fm2 r j = st.fm2 r j) ∧
        (∀ j, (∀ e ∈ L, header.indexOf e.code ≠ j) →
          st₂.fm1 p j = st.fm1 p j ∧ st₂.fm0 p j = st.fm0 p j) ∧
        (∀ e ∈ L, st₂.fm1 p (header.indexOf e.code) = e.maxAgeAt ∧
          (regType = 2 → st₂.fm0 p (header.indexOf e.code) = e.duration))
  | [], st, _, _, _, hl, hcount => by
    refine ⟨st, rfl, hl, hcount, fun r j _ => ⟨rfl, rfl, rfl⟩, fun j _ => ⟨rfl, rfl⟩, by simp⟩
  | e :: L, st, hids, hcodes, hagree, hl, hcount => by
    have hei : e.id = i := hids e (List.mem_cons_self _ _)
    obtain ⟨st1, hstep, hlast1, hcount1, -, hoff1, hcol1, hval1, hdur1⟩ :=
      @processEvent_sameId roster header regType phenoCov e subj st p
        (by rw [hei]; exact hg) (by rw [hl, hei]) hcount
        (hcodes e (List.mem_cons_self _ _))
    obtain ⟨st₂, hfold, hlast2, hcount2, hoff2, hcol2, hval2⟩ :=
      foldBlock_sameId hg L st1 (fun e' he' => hids e' (List.mem_cons_of_mem _ he'))
        (fun e' he' => hcodes e' (List.mem_cons_of_mem _ he'))
        (fun e' he' e'' he'' =>
          hagree e' (List.mem_cons_of_mem _ he') e'' (List.mem_cons_of_mem _ he''))
        (by rw [hlast1, hl]) (by rw [hcount1, hcount])
    refine ⟨st₂, ?_, hlast2, hcount2, ?_, ?_, ?_⟩
    · rw [List.foldlM_cons, hstep]
      exact hfold
    · intro r j hr
      obtain ⟨a0, a1, a2⟩ := hoff2 r j hr
      obtain ⟨b0, b1, b2⟩ := hoff1 r j hr
      exact ⟨a0.trans b0, a1.trans b1, a2.trans b2⟩
    · intro j hj
      obtain ⟨a1, a0⟩ := hcol2 j (fun e' he' => hj e' (List.mem_cons_of_mem _ he'))
      obtain ⟨b1, b0⟩ := hcol1 j (Ne.symm (hj e (List.mem_cons_self _ _)))
      exact ⟨a1.trans b1, a0.trans b0⟩
    · intro e' he'
      rcases List.mem_cons.mp he' with rfl | he''
      · by_cases hshare : ∀ e'' ∈ L, header.indexOf e''.code ≠ header.indexOf e'.code
        · obtain ⟨a1, a0⟩ := hcol2 _ hshare
          exact ⟨a1.trans hval1, fun h2 => (a0.trans (hdur1 h2))⟩
        · push_neg at hshare
          obtain ⟨e'', he''L, hix⟩ := hshare
          obtain ⟨c1, c2⟩ := hval2 e'' he''L
          have hcodeeq : e''.code = e'.code :=
            (List.indexOf_inj (hcodes e'' (List.mem_cons_of_mem _ he''L))
              (hcodes e' (List.mem_cons_self _ _))).mp hix
          have hag := hagree e' (List.mem_cons_self _ _) e''
            (List.mem_cons_of_mem _ he''L) hcodeeq.symm
          rw [hix] at c1 c2
          refine ⟨?_, ?_⟩
          · rw [c1, ← hag.1]
          · intro h2
            rw [c2 h2, ← hag.2]
      · exact hval2 e' he''

/-- Splitting sorted events at the head id: a maximal block of the head's id
followed by events of strictly larger ids. -/
theorem sorted_head_split (eh : Event) (evtail : List Event)
    (hsort : List.Sorted (fun a b : Event => a.id ≤ b.id) (eh :: evtail)) :
    ∃ L rest, evtail = L ++ rest ∧ (∀ e ∈ L, e.id = eh.id) ∧
      (∀ y ∈ rest, eh.id < y.id) ∧
      List.Sorted (fun a b : Event => a.id ≤ b.id) rest ∧
      rest.length ≤ evtail.length := by
  have hpc := List.pairwise_cons.mp hsort
  have hdropsub : ∀ z ∈ evtail.dropWhile (fun e => e.id == eh.id), z ∈ evtail :=
    fun z hz => (List.dropWhile_sublist _).subset hz
  refine ⟨evtail.takeWhile (fun e => e.id == eh.id),
    evtail.dropWhile (fun e => e.id == eh.id),
    (List.takeWhile_append_dropWhile _ _).symm,
    fun e he => by simpa using List.mem_takeWhile_imp he, ?_, ?_, ?_⟩
  · cases hr : evtail.dropWhile (fun e => e.id == eh.id) with
    | nil =>
      intro y hy
      simp at hy
    | cons h rtail =>
      have hh := List.head?_dropWhile_not (fun e => e.id == eh.id) evtail
      rw [hr] at hh
      simp only [List.head?_cons] at hh
      have hhne : h.id ≠ eh.id := by simpa using hh
      intro y hy
      have hyev : y ∈ evtail := hdropsub y (by rw [hr]; exact hy)
      have hyge : eh.id ≤ y.id := hpc.1 y hyev
      rcases List.mem_cons.mp hy with rfl | hy'
      · exact lt_of_le_of_ne hyge (Ne.symm hhne)
      · have hsortdrop : List.Pairwise (fun a b : Event => a.id ≤ b.id)
            (evtail.dropWhile (fun e => e.id == eh.id)) :=
          List.Pairwise.sublist (List.dropWhile_sublist _) hpc.2
        rw [hr] at hsortdrop
        have hle := (List.pairwise_cons.mp hsortdrop).1 y hy'
        have hhge : eh.id ≤ h.id :=
          hpc.1 h (hdropsub h (by rw [hr]; exact List.mem_cons_self _ _))
        omega
  · exact List.Pairwise.sublist (List.dropWhile_sublist _) hpc.2
  · exact (List.dropWhile_sublist _).length_le

/-- The event loop over id-sorted events whose ids all sit in the strictly
id-sorted roster: it succeeds, rows at or below the incoming `count` are
never touched again (in layers 0 and 1), and for every event the final
layers hold the event's `MaxAgeAtICD` in layer 1 and (duration mode) its
`duration` in layer 0, at the (subject row, code column) cell. -/
theorem foldBlocks_spec (R : List Subject) (header : List ℕ) (regType : ℕ)
    (phenoCov : Option ℕ) (hstrict : (R.map Subject.id).Sorted (· < ·))
    (evs : List Event) (st : BuildState)
    (hsort : List.Sorted (fun a b : Event => a.id ≤ b.id) evs)
    (hin : ∀ e ∈ evs, ∃ s ∈ R, s.id = e.id)
    (hcodes : ∀ e ∈ evs, e.code ∈ header)
    (hagree : ∀ e ∈ evs, ∀ e' ∈ evs, e.id = e'.id → e.code = e'.code →
      e.maxAgeAt = e'.maxAgeAt ∧ e.duration = e'.duration)
    (hinv : (st.lastId = none ∧ st.count = -1) ∨
      (∃ l, ∃ q, ∃ hq : q < R.length, st.lastId = some l ∧ (R.get ⟨q, hq⟩).id = l ∧
        st.count = (q : ℤ) ∧ ∀ e ∈ evs, l < e.id)) :
    ∃ st', evs.foldlM (processEvent R header regType phenoCov) st = .ok st' ∧
      (∀ (r j : ℕ), (r : ℤ) ≤ st.count →
        st'.fm0 r j = st.fm0 r j ∧ st'.fm1 r j = st.fm1 r j) ∧
      (∀ e ∈ evs, ∃ p, ∃ hp : p < R.length, (R.get ⟨p, hp⟩).id = e.id ∧
        st'.fm1 p (header.indexOf e.code) = e.maxAgeAt ∧
        (regType = 2 → st'.fm0 p (header.indexOf e.code) = e.duration)) := by
  obtain ⟨n, hn⟩ : ∃ n, evs.length ≤ n := ⟨evs.length, le_refl _⟩
  revert evs st
  induction n with
  | zero =>
    intro evs st hsort hin hcodes hagree hinv hlen
    have hnil : evs = [] := List.length_eq_zero.mp (Nat.le_zero.mp hlen)
    subst hnil
    exact ⟨st, rfl, fun r j _ => ⟨rfl, rfl⟩, by simp⟩
  | succ n IH =>
    intro evs st hsort hin hcodes hagree hinv hlen
    cases evs with
    | nil =>
      exact ⟨st, rfl, fun r j _ => ⟨rfl, rfl⟩, by simp⟩
    | cons eh evtail =>
      -- the roster row of the head id
      obtain ⟨p, hp, hpid⟩ : ∃ p, ∃ hp : p < R.length, (R.get ⟨p, hp⟩).id = eh.id := by
        obtain ⟨s, hsR, hsid⟩ := hin eh (List.mem_cons_self _ _)
        obtain ⟨idx, hidx⟩ := List.mem_iff_get.mp hsR
        exact ⟨idx.1, idx.2, by rw [hidx]; exact hsid⟩
      obtain ⟨subj, hgdict⟩ : ∃ subj, gdict R eh.id = some subj := by
        obtain ⟨subj, hs⟩ := gdict_of_mem (R := R) (s := R.get ⟨p, hp⟩) (List.get_mem _ _ _)
        rw [hpid] at hs
        exact ⟨subj, hs⟩
      -- the state's last id is not the head id, and the walk starts at or before p
      have hlne : st.lastId ≠ some eh.id := by
        rcases hinv with ⟨hnone, -⟩ | ⟨l, q, hq, hsl, -, -, hlt⟩
        · rw [hnone]
          exact fun hcon => Option.noConfusion hcon
        · rw [hsl]
          intro hcon
          have : l = eh.id := Option.some.inj hcon
          have := hlt eh (List.mem_cons_self _ _)
          omega
      have hn : (st.count + 1).toNat ≤ p := by
        rcases hinv with ⟨-, hcm1⟩ | ⟨l, q, hq, -, hqid, hqc, hlt⟩
        · rw [hcm1]
          simp
        · rw [hqc]
          have hlid : (R.get ⟨q, hq⟩).id < (R.get ⟨p, hp⟩).id := by
            rw [hqid, hpid]
            exact hlt eh (List.mem_cons_self _ _)
          have := strict_pos_mono hstrict hq hp hlid
          have : ((q : ℤ) + 1).toNat = q + 1 := by
            exact_mod_cast Int.toNat_natCast (q + 1)
          omega
      have hno : ∀ q (hq : q < R.length), (st.count + 1).toNat ≤ q → q < p →
          (R.get ⟨q, hq⟩).id ≠ eh.id := by
        intro q hq hle hqp
        have := strict_id_lt hstrict hq hp hqp
        rw [hpid] at this
        omega
      -- the first event of the head id
      obtain ⟨st₁, hstep1, hl1, hc1, -, hfrz1, -, hcol1, hval1, hdur1⟩ :=
        @processEvent_newId R header regType phenoCov eh subj st p
          hp hgdict hlne hpid hn hno (hcodes eh (List.mem_cons_self _ _))
      -- split the tail into the rest of the head block and the later ids
      obtain ⟨L, rest, hevtail, hLid, hrestgt, hsortrest, hrestlen⟩ :=
        sorted_head_split eh evtail hsort
      have hrest_n : rest.length ≤ n := by
        simp only [List.length_cons] at hlen
        omega
      have hLmem : ∀ e ∈ L, e ∈ eh :: evtail := fun e he =>
        List.mem_cons_of_mem _ (by rw [hevtail]; exact List.mem_append_left _ he)
      have hrestmem : ∀ e ∈ rest, e ∈ eh :: evtail := fun e he =>
        List.mem_cons_of_mem _ (by rw [hevtail]; exact List.mem_append_right _ he)
      -- the remaining events of the head block
      obtain ⟨st₂, hfold2, hl2, hc2, hoff2, hcol2, hval2⟩ :=
        @foldBlock_sameId R header regType phenoCov eh.id subj p hgdict L st₁ hLid
          (fun e he => hcodes e (hLmem e he))
          (fun e he e' he' hcc => hagree e (hLmem e he) e' (hLmem e' he')
            (by rw [hLid e he, hLid e' he']) hcc)
          hl1 hc1
      -- the later ids by recursion
      obtain ⟨st', hfold3, hfrz3, hval3⟩ :=
        IH rest st₂ hsortrest
          (fun e he => hin e (hrestmem e he))
          (fun e he => hcodes e (hrestmem e he))
          (fun e he e' he' => hagree e (hrestmem e he) e' (hrestmem e' he'))
          (Or.inr ⟨eh.id, p, hp, hl2, hpid, hc2, hrestgt⟩) hrest_n
      have hfrz3' : ∀ (r j : ℕ), r ≤ p →
          st'.fm0 r j = st₂.fm0 r j ∧ st'.fm1 r j = st₂.fm1 r j := by
        intro r j hr
        refine hfrz3 r j ?_
        rw [hc2]
        exact_mod_cast hr
      refine ⟨st', ?_, ?_, ?_⟩
      · rw [show eh :: evtail = eh :: (L ++ rest) from by rw [hevtail],
          List.foldlM_cons, hstep1]
        show (L ++ rest).foldlM (processEvent R header regType phenoCov) st₁ = _
        rw [List.foldlM_append, hfold2]
        exact hfold3
      · -- rows at or below the old count are untouched
        intro r j hr
        have hrp : r < p := by
          have h1 : (st.count + 1).toNat ≤ p := hn
          have h2 : (0 : ℤ) ≤ r := Int.natCast_nonneg r
          omega
        obtain ⟨a0, a1⟩ := hfrz3' r j (le_of_lt hrp)
        obtain ⟨b0, b1, -⟩ := hoff2 r j (by omega)
        obtain ⟨c0, c1, -⟩ := hfrz1 r j hr
        exact ⟨a0.trans (b0.trans c0), a1.trans (b1.trans c1)⟩
      · -- the value clauses
        intro e he
        rcases List.mem_cons.mp he with rfl | hetail
        · -- the head event: its own writes possibly overwritten inside its block
          refine ⟨p, hp, hpid, ?_, ?_⟩
          · by_cases hshare : ∀ e'' ∈ L, header.indexOf e''.code ≠ header.indexOf e.code
            · obtain ⟨a1, -⟩ := hcol2 _ hshare
              rw [(hfrz3' p _ (le_refl p)).2, a1, hval1]
            · push_neg at hshare
              obtain ⟨e'', he''L, hix⟩ := hshare
              obtain ⟨c1, -⟩ := hval2 e'' he''L
              have hcodeeq : e''.code = e.code :=
                (List.indexOf_inj (hcodes e'' (hLmem e'' he''L))
                  (hcodes e (List.mem_cons_self _ _))).mp hix
              have hag := hagree e (List.mem_cons_self _ _) e'' (hLmem e'' he''L)
                (hLid e'' he''L).symm hcodeeq.symm
              rw [(hfrz3' p _ (le_refl p)).2, ← hix, c1, ← hag.1]
          · intro h2
            by_cases hshare : ∀ e'' ∈ L, header.indexOf e''.code ≠ header.indexOf e.code
            · obtain ⟨-, a0⟩ := hcol2 _ hshare
              rw [(hfrz3' p _ (le_refl p)).1, a0, hdur1 h2]
            · push_neg at hshare
              obtain ⟨e'', he''L, hix⟩ := hshare
              obtain ⟨-, c2⟩ := hval2 e'' he''L
              have hcodeeq : e''.code = e.code :=
                (List.indexOf_inj (hcodes e'' (hLmem e'' he''L))
                  (hcodes e (List.mem_cons_self _ _))).mp hix
              have hag := hagree e (List.mem_cons_self _ _) e'' (hLmem e'' he''L)
                (hLid e'' he''L).symm hcodeeq.symm
              rw [(hfrz3' p _ (le_refl p)).1, ← hix, c2 h2, ← hag.2]
        · rw [hevtail] at hetail
          rcases List.mem_append.mp hetail with heL | herest
          · -- an event of the head block
            refine ⟨p, hp, by rw [hpid, hLid e heL], ?_, ?_⟩
            · obtain ⟨c1, -⟩ := hval2 e heL
              rw [(hfrz3' p _ (le_refl p)).2, c1]
            · intro h2
              obtain ⟨-, c2⟩ := hval2 e heL
              rw [(hfrz3' p _ (le_refl p)).1, c2 h2]
          · exact hval3 e herest

/-- `foldl max` starting from a seed: the result is the seed or a list
element, dominates the seed, and dominates every element (the semantics of
the pandas `transform('max')` the group statistics use). -/
theorem foldl_max_spec : ∀ (g : List ℚ) (x : ℚ),
    (g.foldl max x = x ∨ g.foldl max x ∈ g) ∧ x ≤ g.foldl max x ∧
      ∀ a ∈ g, a ≤ g.foldl max x
  | [], x => ⟨Or.inl rfl, le_refl x, by simp⟩
  | b :: g, x => by
    obtain ⟨hmem, hle, hub⟩ := foldl_max_spec g (max x b)
    refine ⟨?_, ?_, ?_⟩
    · rw [List.foldl_cons]
      rcases hmem with heq | hmem
      · rcases max_choice x b with hx | hb
        · exact Or.inl (by rw [heq, hx])
        · exact Or.inr (by rw [heq, hb]; exact List.mem_cons_self _ _)
      · exact Or.inr (List.mem_cons_of_mem _ hmem)
    · rw [List.foldl_cons]
      exact le_trans (le_max_left x b) hle
    · intro a ha
      rw [List.foldl_cons]
      rcases List.mem_cons.mp ha with rfl | ha
      · exact le_trans (le_max_right x a) hle
      · exact hub a ha

/-- `foldl min` starting from a seed, dually. -/
theorem foldl_min_spec : ∀ (g : List ℚ) (x : ℚ),
    (g.foldl min x = x ∨ g.foldl min x ∈ g) ∧ g.foldl min x ≤ x ∧
      ∀ a ∈ g, g.foldl min x ≤ a
  | [], x => ⟨Or.inl rfl, le_refl x, by simp⟩
  | b :: g, x => by
    obtain ⟨hmem, hle, hlb⟩ := foldl_min_spec g (min x b)
    refine ⟨?_, ?_, ?_⟩
    · rw [List.foldl_cons]
      rcases hmem with heq | hmem
      · rcases min_choice x b with hx | hb
        · exact Or.inl (by rw [heq, hx])
        · exact Or.inr (by rw [heq, hb]; exact List.mem_cons_self _ _)
      · exact Or.inr (List.mem_cons_of_mem _ hmem)
    · rw [List.foldl_cons]
      exact le_trans hle (min_le_left x b)
    · intro a ha
      rw [List.foldl_cons]
      rcases List.mem_cons.mp ha with rfl | ha
      · exact le_trans hle (min_le_right x a)
      · exact hlb a ha

/-- With a seed taken from the list, `foldl max` lands in the list. -/
theorem foldl_max_mem_of_mem {g : List ℚ} {x : ℚ} (hx : x ∈ g) :
    g.foldl max x ∈ g := by
  rcases (foldl_max_spec g x).1 with heq | hmem
  · rw [heq]; exact hx
  · exact hmem

/-- With a seed taken from the list, `foldl min` lands in the list. -/
theorem foldl_min_mem_of_mem {g : List ℚ} {x : ℚ} (hx : x ∈ g) :
    g.foldl min x ∈ g := by
  rcases (foldl_min_spec g x).1 with heq | hmem
  · rw [heq]; exact hx
  · exact hmem

/-- The seed is irrelevant as long as it comes from the list: the group
maximum is the same for every row of the group. -/
theorem foldl_max_eq_of_mem {g : List ℚ} {x y : ℚ} (hx : x ∈ g) (hy : y ∈ g) :
    g.foldl max x = g.foldl max y :=
  le_antisymm ((foldl_max_spec g y).2.2 _ (foldl_max_mem_of_mem hx))
    ((foldl_max_spec g x).2.2 _ (foldl_max_mem_of_mem hy))

/-- The seed is irrelevant for the group minimum, likewise. -/
theorem foldl_min_eq_of_mem {g : List ℚ} {x y : ℚ} (hx : x ∈ g) (hy : y ∈ g) :
    g.foldl min x = g.foldl min y :=
  le_antisymm ((foldl_min_spec g x).2.2 _ (foldl_min_mem_of_mem hy))
    ((foldl_min_spec g y).2.2 _ (foldl_min_mem_of_mem hx))

/-- An event row's own age belongs to its (id, code) group. -/
theorem age_mem_groupAges {raws : List RawEvent} {e : RawEvent} {i c : ℕ}
    (he : e ∈ raws) (hid : e.id = i) (hc : e.code = c) :
    e.age ∈ groupAges raws i c := by
  unfold groupAges
  exact List.mem_map_of_mem _ (List.mem_filter.mpr ⟨he, by simp [hid, hc]⟩)

/-- C5: for every (subject, phenotype) pair with at least one event — under
the data-model preconditions that roster ids are unique, every event id has
a roster row and every event code is in the code table — the built feature
matrix holds, at that subject's row and that phenotype's column, the group
maximum of `AgeAtICD` in layer 1, and in duration mode (`reg_type = 2`) the
group's (max age − min age + 1) in layer 0: both are statistics of the set
of the pair's event ages (characterized extensionally as a member of the
group's age list that bounds it), so the values are assigned idempotently
per (id, phenotype) group and are independent of how many events the pair
has beyond the extremes. -/
theorem C5_layer1_max_layer0_duration
    (roster : List Subject) (raws : List RawEvent) (regType : ℕ)
    (codeTable : List ℕ) (phenoCov : Option ℕ) (i c : ℕ)
    (hnd : (roster.map Subject.id).Nodup)
    (hids : ∀ e ∈ raws, ∃ s ∈ roster, s.id = e.id)
    (hcodes : ∀ e ∈ raws, e.code ∈ codeTable)
    (hpair : ∃ e ∈ raws, e.id = i ∧ e.code = c) :
    ∃ st, generate_feature_matrix roster (get_icd_codes regType raws) regType
        codeTable phenoCov = .ok (st, codeTable.dedup.insertionSort (· ≤ ·)) ∧
    ∃ p, ∃ hp : p < (roster.insertionSort (fun a b : Subject => a.id ≤ b.id)).length,
      ((roster.insertionSort (fun a b : Subject => a.id ≤ b.id)).get ⟨p, hp⟩).id = i ∧
      ∃ mx mn, mx ∈ groupAges raws i c ∧ (∀ a ∈ groupAges raws i c, a ≤ mx) ∧
        mn ∈ groupAges raws i c ∧ (∀ a ∈ groupAges raws i c, mn ≤ a) ∧
        st.fm1 p ((codeTable.dedup.insertionSort (· ≤ ·)).indexOf c) = mx ∧
        (regType = 2 →
          st.fm0 p ((codeTable.dedup.insertionSort (· ≤ ·)).indexOf c) = mx - mn + 1) := by
  obtain ⟨e₀, he₀, hi₀, hc₀⟩ := hpair
  -- names for the sorted inputs
  have hpermR := List.perm_insertionSort (fun a b : Subject => a.id ≤ b.id) roster
  have hpermE := List.perm_insertionSort (fun a b : Event => a.id ≤ b.id)
    (get_icd_codes regType raws)
  have hpermH := List.perm_insertionSort (· ≤ ·) codeTable.dedup
  -- the big fold succeeds and writes the group statistics
  obtain ⟨st, hfold, -, hval⟩ :=
    foldBlocks_spec (roster.insertionSort (fun a b : Subject => a.id ≤ b.id))
      (codeTable.dedup.insertionSort (· ≤ ·)) regType phenoCov
      (sorted_roster_strict hnd)
      ((get_icd_codes regType raws).insertionSort (fun a b : Event => a.id ≤ b.id))
      initState
      (List.sorted_insertionSort _ _)
      (by
        intro e he
        obtain ⟨r, hr, hre⟩ := List.mem_map.mp (hpermE.mem_iff.mp he)
        obtain ⟨s, hs, hsid⟩ := hids r hr
        exact ⟨s, hpermR.mem_iff.mpr hs, by rw [hsid, ← hre]⟩)
      (by
        intro e he
        obtain ⟨r, hr, hre⟩ := List.mem_map.mp (hpermE.mem_iff.mp he)
        have : e.code = r.code := by rw [← hre]
        rw [this]
        exact hpermH.mem_iff.mpr (List.mem_dedup.mpr (hcodes r hr)))
      (by
        intro e he e' he' hid hcode
        obtain ⟨r, hr, hre⟩ := List.mem_map.mp (hpermE.mem_iff.mp he)
        obtain ⟨r', hr', hre'⟩ := List.mem_map.mp (hpermE.mem_iff.mp he')
        subst hre hre'
        simp only at hid hcode ⊢
        rw [hid, hcode]
        have hmem : r.age ∈ groupAges raws r'.id r'.code :=
          age_mem_groupAges hr hid hcode
        have hmem' : r'.age ∈ groupAges raws r'.id r'.code :=
          age_mem_groupAges hr' rfl rfl
        constructor
        · exact foldl_max_eq_of_mem hmem hmem'
        · rw [foldl_max_eq_of_mem hmem hmem', foldl_min_eq_of_mem hmem hmem'])
      (Or.inl ⟨rfl, rfl⟩)
  refine ⟨st, ?_, ?_⟩
  · unfold generate_feature_matrix
    rw [hfold]
  · -- the witness event of the (i, c) pair
    obtain ⟨p, hp, hpid, hfm1, hfm0⟩ := hval
      { id := e₀.id, code := e₀.code,
        maxAgeAt := (groupAges raws e₀.id e₀.code).foldl max e₀.age,
        duration := if regType = 2 then
          (groupAges raws e₀.id e₀.code).foldl max e₀.age -
            (groupAges raws e₀.id e₀.code).foldl min e₀.age + 1 else 0 }
      (hpermE.mem_iff.mpr (by
        unfold get_icd_codes
        exact List.mem_map_of_mem _ he₀))
    have hmem₀ : e₀.age ∈ groupAges raws i c := age_mem_groupAges he₀ hi₀ hc₀
    refine ⟨p, hp, by rw [hpid]; exact hi₀, (groupAges raws i c).foldl max e₀.age,
      (groupAges raws i c).foldl min e₀.age, foldl_max_mem_of_mem hmem₀,
      (foldl_max_spec _ _).2.2, foldl_min_mem_of_mem hmem₀,
      (foldl_min_spec _ _).2.2, ?_, ?_⟩
    · subst hi₀
      subst hc₀
      exact hfm1
    · intro h2
      subst h2
      subst hi₀
      subst hc₀
      exact hfm0 rfl

/-- C5 witness: one subject (id 1, `MaxAgeAtVisit` 40), two events of the
(1, 100) pair with ages 30 and 35, duration mode; the group-statistic
characterization holds at this input with all preconditions checked. -/
theorem C5_witness_group_stats :
    (([⟨1, 40⟩] : List Subject).map Subject.id).Nodup ∧
    (∀ e ∈ ([⟨1, 100, 30⟩, ⟨1, 100, 35⟩] : List RawEvent),
      ∃ s ∈ ([⟨1, 40⟩] : List Subject), s.id = e.id) ∧
    (∀ e ∈ ([⟨1, 100, 30⟩, ⟨1, 100, 35⟩] : List RawEvent), e.code ∈ [100]) ∧
    (∃ e ∈ ([⟨1, 100, 30⟩, ⟨1, 100, 35⟩] : List RawEvent), e.id = 1 ∧ e.code = 100) ∧
    (∃ st, generate_feature_matrix [⟨1, 40⟩]
        (get_icd_codes 2 [⟨1, 100, 30⟩, ⟨1, 100, 35⟩]) 2 [100] none
        = .ok (st, ([100] : List ℕ).dedup.insertionSort (· ≤ ·)) ∧
    ∃ p, ∃ hp : p <
        (([⟨1, 40⟩] : List Subject).insertionSort (fun a b : Subject => a.id ≤ b.id)).length,
      ((([⟨1, 40⟩] : List Subject).insertionSort
          (fun a b : Subject => a.id ≤ b.id)).get ⟨p, hp⟩).id = 1 ∧
      ∃ mx mn, mx ∈ groupAges [⟨1, 100, 30⟩, ⟨1, 100, 35⟩] 1 100 ∧
        (∀ a ∈ groupAges [⟨1, 100, 30⟩, ⟨1, 100, 35⟩] 1 100, a ≤ mx) ∧
        mn ∈ groupAges [⟨1, 100, 30⟩, ⟨1, 100, 35⟩] 1 100 ∧
        (∀ a ∈ groupAges [⟨1, 100, 30⟩, ⟨1, 100, 35⟩] 1 100, mn ≤ a) ∧
        st.fm1 p ((([100] : List ℕ).dedup.insertionSort (· ≤ ·)).indexOf 100) = mx ∧
        (2 = 2 →
          st.fm0 p ((([100] : List ℕ).dedup.insertionSort (· ≤ ·)).indexOf 100)
            = mx - mn + 1)) :=
  ⟨by decide, by decide, by decide, by decide,
    C5_layer1_max_layer0_duration [⟨1, 40⟩] [⟨1, 100, 30⟩, ⟨1, 100, 35⟩] 2 [100] none 1 100
      (by decide) (by decide) (by decide) (by decide)⟩
